import Mathlib

/-!
Verification of `blocks/bricks/base.py`: the `Application`/`Brick` protocol,
the lazy allocation/initialization lifecycle with child propagation, the
call-stack-based parent/child enforcement, the `Parameters` container and
the `lazy` constructor wrapper.

Graph-variable handles (Theano variables) are opaque node handles; we model
them by natural-number identifiers.  The role/annotation registry
(`blocks.roles.add_role`, `blocks.graph.add_annotation`) is an external
collaborator: a role tag or annotation is recorded as data attached to the
handle (for `Parameters` elements) or to the tagged copy (for `apply`).
-/

namespace Blocks

/-- Roles consumed by the core (from `blocks.roles`). -/
inductive Role where
  | PARAMETER
  | INPUT
  | OUTPUT
deriving DecidableEq, Repr

/-! ## The `Parameters` container (`Parameters` in base.py)

An element of the underlying `_params` list: either a graph-variable handle
carrying its tag state (role list and annotation list, both appended to by
the registry), or a non-variable value (e.g. `None`), identified by a key.
-/

inductive PElem where
  | pvar (vid : Nat) (roles : List Role) (anns : List Nat)
  | pother (k : Nat)
deriving DecidableEq, Repr

/-- `Parameters._annotate`: if the value is a graph variable, `add_role(value,
PARAMETER)` and `add_annotation(value, self.brick)`; both registries append. -/
def pAnnotate (brickId : Nat) : PElem → PElem
  | .pvar v rs as => .pvar v (rs ++ [Role.PARAMETER]) (as ++ [brickId])
  | .pother k => .pother k

/-- The `Parameters` object: owning brick plus the `_params` list. -/
structure Parameters where
  brick : Nat
  elems : List PElem
deriving DecidableEq, Repr

/-- Python `list.insert`: clamps the index to the length (an index past the
end appends). -/
def insertPy {α : Type} : List α → Nat → α → List α
  | l, 0, v => v :: l
  | [], _ + 1, v => [v]
  | x :: xs, i + 1, v => x :: insertPy xs i v

/-- `Parameters.insert`: annotate the value, then insert it into `_params`. -/
def Parameters.insertAt (c : Parameters) (i : Nat) (v : PElem) : Parameters :=
  { c with elems := insertPy c.elems i (pAnnotate c.brick v) }

/-- `MutableSequence.append` is `insert(len(self), v)`. -/
def Parameters.append (c : Parameters) (v : PElem) : Parameters :=
  c.insertAt c.elems.length v

/-- `Parameters.__setitem__`: annotate the value, then `_params[key] = value`
(callers use an in-range index; out of range raises in Python). -/
def Parameters.setItem (c : Parameters) (i : Nat) (v : PElem) : Parameters :=
  { c with elems := c.elems.set i (pAnnotate c.brick v) }

/-- `Parameters.__delitem__`: `del _params[key]`. -/
def Parameters.delItem (c : Parameters) (i : Nat) : Parameters :=
  { c with elems := c.elems.eraseIdx i }

/-- `Parameters.__init__(brick, params)`: start empty, append each element. -/
def Parameters.mk0 (brickId : Nat) (params : List PElem) : Parameters :=
  params.foldl (fun c v => c.append v) { brick := brickId, elems := [] }

/-! ## The `lazy` constructor decorator -/

/-- A Python value passed to a constructor; `none` is Python `None`. -/
abbrev PyV := Option Nat

def lookupKw : List (String × PyV) → String → Option PyV
  | [], _ => none
  | (k, v) :: rest, nm => if k = nm then some v else lookupKw rest nm

def eraseKw : List (String × PyV) → String → List (String × PyV)
  | [], _ => []
  | (k, v) :: rest, nm => if k = nm then rest else (k, v) :: eraseKw rest nm

/-- The loop of `lazy.init`: for each required positional name (index `i`),
if it was passed as a keyword: raise `ValueError` when `args[i] is not None`,
otherwise fill `args[i]` from the keyword and pop the keyword. -/
def lazyFill : List String → Nat → List PyV → List (String × PyV) →
    Except Unit (List PyV × List (String × PyV))
  | [], _, args, kwargs => .ok (args, kwargs)
  | nm :: rest, i, args, kwargs =>
    match lookupKw kwargs nm with
    | none => lazyFill rest (i + 1) args kwargs
    | some v =>
      if args.getD i none ≠ none then .error ()
      else lazyFill rest (i + 1) (args.set i v) (eraseKw kwargs nm)

/-- The body of the wrapper produced by `lazy` when `self.lazy` is true:
pad the positional arguments with `None` up to the number of required
positional arguments, then run the keyword-filling loop.  On success it
returns the argument list and leftover keywords passed on to the wrapped
constructor. -/
def lazyInit (argNames : List String) (nDefaults : Nat) (args : List PyV)
    (kwargs : List (String × PyV)) :
    Except Unit (List PyV × List (String × PyV)) :=
  let nReq := argNames.length - nDefaults
  let padded := args ++ List.replicate (nReq - args.length) none
  lazyFill (argNames.take nReq) 0 padded kwargs

/-! ## Bricks and the lifecycle engine

A brick's object graph is fixed at construction time: we model it as a tree
of per-brick static data (`BConf`) with the children list.  The mutable
lifecycle flags and the parameter list live in a process state mapping each
brick's identity to its `BrickState`.  The brick-specific hooks
(`_allocate`, `_initialize`, `_push_allocation_config`,
`_push_initialization_config`) are overridden by concrete bricks outside
this file and are arbitrary code, so their outcomes may differ from one
invocation to the next; a `BConf` records the snapshot of outcomes one
invocation observes: whether each hook raises, and (for `_allocate`) the
parameter handles it appends to the freshly reset `params` list.  A
sequence of public operations on one real brick tree is a list of
operations on `Brick` values sharing the tree's identities and structure,
each carrying the snapshot its invocation observes (`runOps` below). -/

structure BConf where
  id : Nat
  name : String
  lazy : Bool
  allocFail : Bool
  initFail : Bool
  pushAllocFail : Bool
  pushInitFail : Bool
  allocParams : List Nat
deriving DecidableEq, Repr

inductive Brick where
  | node (conf : BConf) (children : List Brick)

def Brick.conf : Brick → BConf
  | .node c _ => c

def Brick.childList : Brick → List Brick
  | .node _ cs => cs

def Brick.cid (t : Brick) : Nat := t.conf.id

/-- The mutable attributes of one brick (`__init__` sets the four flags to
false; `params` only exists after `allocate` and starts empty there). -/
structure BrickState where
  allocated : Bool
  allocation_config_pushed : Bool
  initialized : Bool
  initialization_config_pushed : Bool
  params : List Nat
deriving DecidableEq, Repr

/-- Process state: brick identity to its mutable attributes. -/
def St : Type := Nat → BrickState

/-- The state right after `Brick.__init__` on every brick. -/
def initSt : St := fun _ =>
  { allocated := false, allocation_config_pushed := false,
    initialized := false, initialization_config_pushed := false, params := [] }

def setSt (st : St) (j : Nat) (s : BrickState) : St :=
  fun k => if k = j then s else st k

/-- Which hook raised (carried by the propagating exception). -/
inductive HookKind where
  | alloc
  | init
  | pushAlloc
  | pushInit
deriving DecidableEq, Repr

/-- An exception unwinding out of a lifecycle call.  `lazyWrap` is modelled
from the spec: `reraise_as` (in `blocks.utils`, not part of this file)
re-signals a hook failure in lazy mode with the guidance message about
missing lazy configuration, preserving the original failure as the cause. -/
inductive Err where
  | hookFail (id : Nat) (k : HookKind)
  | lazyWrap (orig : Err)
deriving DecidableEq, Repr

/-- Observable events: hook invocations (lifecycle ordering evidence). -/
inductive LEv where
  | hook (id : Nat) (k : HookKind)
deriving DecidableEq, Repr

/-- Result of a lifecycle call: the state it leaves behind, the exception
it propagates (if any), and the hook-invocation trace. -/
structure LRes where
  st : St
  err : Option Err
  tr : List LEv

mutual

/-- `Brick.push_allocation_config`: run the brick's own hook, set the flag,
then push to every child; if a child's push raises, reset the flag to false
and re-raise (children already pushed are not rolled back). -/
def pushAllocationConfig : Brick → St → LRes
  | .node c cs, st =>
    if c.pushAllocFail then
      { st := st, err := some (.hookFail c.id .pushAlloc),
        tr := [.hook c.id .pushAlloc] }
    else
      let st1 := setSt st c.id { st c.id with allocation_config_pushed := true }
      let r := pushAllocationConfigList cs st1
      match r.err with
      | none => { st := r.st, err := none, tr := .hook c.id .pushAlloc :: r.tr }
      | some e =>
        { st := setSt r.st c.id
            { r.st c.id with allocation_config_pushed := false },
          err := some e, tr := .hook c.id .pushAlloc :: r.tr }

def pushAllocationConfigList : List Brick → St → LRes
  | [], st => { st := st, err := none, tr := [] }
  | t :: ts, st =>
    let r := pushAllocationConfig t st
    match r.err with
    | some e => { st := r.st, err := some e, tr := r.tr }
    | none =>
      let r2 := pushAllocationConfigList ts r.st
      { st := r2.st, err := r2.err, tr := r.tr ++ r2.tr }

end

mutual

/-- `Brick.push_initialization_config`: symmetric to the allocation push. -/
def pushInitializationConfig : Brick → St → LRes
  | .node c cs, st =>
    if c.pushInitFail then
      { st := st, err := some (.hookFail c.id .pushInit),
        tr := [.hook c.id .pushInit] }
    else
      let st1 := setSt st c.id
        { st c.id with initialization_config_pushed := true }
      let r := pushInitializationConfigList cs st1
      match r.err with
      | none => { st := r.st, err := none, tr := .hook c.id .pushInit :: r.tr }
      | some e =>
        { st := setSt r.st c.id
            { r.st c.id with initialization_config_pushed := false },
          err := some e, tr := .hook c.id .pushInit :: r.tr }

def pushInitializationConfigList : List Brick → St → LRes
  | [], st => { st := st, err := none, tr := [] }
  | t :: ts, st =>
    let r := pushInitializationConfig t st
    match r.err with
    | some e => { st := r.st, err := some e, tr := r.tr }
    | none =>
      let r2 := pushInitializationConfigList ts r.st
      { st := r2.st, err := r2.err, tr := r.tr ++ r2.tr }

end

/-- `if not self.allocation_config_pushed: self.push_allocation_config()`. -/
def maybePushAlloc (t : Brick) (st : St) : LRes :=
  if (st t.cid).allocation_config_pushed then
    { st := st, err := none, tr := [] }
  else pushAllocationConfig t st

/-- `if not self.initialization_config_pushed:
self.push_initialization_config()`. -/
def maybePushInit (t : Brick) (st : St) : LRes :=
  if (st t.cid).initialization_config_pushed then
    { st := st, err := none, tr := [] }
  else pushInitializationConfig t st

mutual

/-- `Brick.allocate`: push the allocation config if not yet pushed, allocate
all children, reset `params` to the empty list, run `_allocate` (a failure
is re-raised with the lazy guidance when `self.lazy`, unchanged otherwise),
then mark `allocated`. -/
def allocate : Brick → St → LRes
  | .node c cs, st =>
    let r1 := maybePushAlloc (.node c cs) st
    match r1.err with
    | some e => { st := r1.st, err := some e, tr := r1.tr }
    | none =>
      let r2 := allocateList cs r1.st
      match r2.err with
      | some e => { st := r2.st, err := some e, tr := r1.tr ++ r2.tr }
      | none =>
        let st3 := setSt r2.st c.id { r2.st c.id with params := [] }
        if c.allocFail then
          { st := st3,
            err := some (if c.lazy then .lazyWrap (.hookFail c.id .alloc)
              else .hookFail c.id .alloc),
            tr := r1.tr ++ r2.tr ++ [.hook c.id .alloc] }
        else
          { st := setSt st3 c.id
              { st3 c.id with params := c.allocParams, allocated := true },
            err := none, tr := r1.tr ++ r2.tr ++ [.hook c.id .alloc] }

def allocateList : List Brick → St → LRes
  | [], st => { st := st, err := none, tr := [] }
  | t :: ts, st =>
    let r := allocate t st
    match r.err with
    | some e => { st := r.st, err := some e, tr := r.tr }
    | none =>
      let r2 := allocateList ts r.st
      { st := r2.st, err := r2.err, tr := r.tr ++ r2.tr }

end

/-- `if not self.allocated: self.allocate()`. -/
def maybeAllocate (t : Brick) (st : St) : LRes :=
  if (st t.cid).allocated then
    { st := st, err := none, tr := [] }
  else allocate t st

mutual

/-- `Brick.initialize`: allocate if not yet allocated, push the
initialization config if not yet pushed, initialize all children, run
`_initialize` (with the same lazy-mode rewrapping policy), then mark
`initialized`. -/
def initializeBrick : Brick → St → LRes
  | .node c cs, st =>
    let r1 := maybeAllocate (.node c cs) st
    match r1.err with
    | some e => { st := r1.st, err := some e, tr := r1.tr }
    | none =>
      let r2 := maybePushInit (.node c cs) r1.st
      match r2.err with
      | some e => { st := r2.st, err := some e, tr := r1.tr ++ r2.tr }
      | none =>
        let r3 := initializeBrickList cs r2.st
        match r3.err with
        | some e =>
          { st := r3.st, err := some e, tr := r1.tr ++ r2.tr ++ r3.tr }
        | none =>
          if c.initFail then
            { st := r3.st,
              err := some (if c.lazy then .lazyWrap (.hookFail c.id .init)
                else .hookFail c.id .init),
              tr := r1.tr ++ r2.tr ++ r3.tr ++ [.hook c.id .init] }
          else
            { st := setSt r3.st c.id
                { r3.st c.id with initialized := true },
              err := none,
              tr := r1.tr ++ r2.tr ++ r3.tr ++ [.hook c.id .init] }

def initializeBrickList : List Brick → St → LRes
  | [], st => { st := st, err := none, tr := [] }
  | t :: ts, st =>
    let r := initializeBrick t st
    match r.err with
    | some e => { st := r.st, err := some e, tr := r.tr }
    | none =>
      let r2 := initializeBrickList ts r.st
      { st := r2.st, err := r2.err, tr := r.tr ++ r2.tr }

end

/-- The lifecycle prefix of `Application.apply` (base.py lines 259-263):
`if not brick.allocated: brick.allocate()`, then
`if not brick.initialized and not brick.lazy: brick.initialize()`. -/
def applyLifecycle (t : Brick) (st : St) : LRes :=
  let r1 := maybeAllocate t st
  match r1.err with
  | some e => { st := r1.st, err := some e, tr := r1.tr }
  | none =>
    if !(r1.st t.cid).initialized && !t.conf.lazy then
      let r2 := initializeBrick t r1.st
      { st := r2.st, err := r2.err, tr := r1.tr ++ r2.tr }
    else { st := r1.st, err := none, tr := r1.tr }

/-! ## `Application.apply`

The wrapped application function is user code; its observable behaviour in
one invocation is either a (packed) list of return values or an exception.
`pack`/`unpack` (from `blocks.utils`, not part of this file) are modelled
from the spec: `pack` normalizes the function's return to a list,
`unpack` returns the single element of a one-element list and the list
itself otherwise.  The call stack is class-level state of `Application`
shared by all applications; we keep its top at the head of the list
(Python appends to and pops from the tail). -/

/-- `_variable_name(brick_name, application_name, name)`. -/
def variableName (brickName applicationName name : String) : String :=
  brickName ++ "_" ++ applicationName ++ "_" ++ name

/-- The copy produced by `copy_and_tag`: an independent handle with the
Theano name, the Blocks tag name, the added role, and the annotation
back-reference to the owning brick (the fresh `ApplicationCall` of this
invocation is annotated as well). -/
structure Tagged where
  source : Nat
  name : String
  tagName : String
  role : Role
  annBrick : Nat
deriving DecidableEq, Repr

def copyAndTag (brickId : Nat) (brickName appName nm : String) (v : Nat)
    (r : Role) : Tagged :=
  { source := v, name := variableName brickName appName nm, tagName := nm,
    role := r, annBrick := brickId }

/-- A positional or keyword argument of an `apply` invocation: a
graph-variable handle, a non-variable value, or one of the auto-injected
`application` / `application_call` objects. -/
inductive InVal where
  | var (v : Nat)
  | other (k : Nat)
  | appObj
  | callObj
deriving DecidableEq, Repr

/-- A value returned by the wrapped function (after `pack`). -/
inductive OutVal where
  | var (v : Nat)
  | other (k : Nat)
deriving DecidableEq, Repr

def OutVal.isVar : OutVal → Bool
  | .var _ => true
  | .other _ => false

/-- An output as returned to the caller: graph variables are replaced by
their tagged copies, other values stay as they are. -/
inductive TOut where
  | tagged (tg : Tagged)
  | raw (o : OutVal)
deriving DecidableEq, Repr

/-- The value `apply` returns: a single value, a sequence, or (with
`return_dict`) an ordered mapping. -/
inductive RetVal where
  | one (x : TOut)
  | many (xs : List TOut)
  | dict (xs : List (String × TOut))
deriving DecidableEq, Repr

/-- An exception propagating out of `apply`. -/
inductive AErr where
  | returnFlagsConflict
  | lifecycleOrdering
  | unexpectedOutputs
  | noOutputsAttr
  | lifecycleFail (e : Err)
  | appRaise
deriving DecidableEq, Repr

/-- Observable events of one `apply` invocation, in order. -/
inductive AEv where
  | lc (e : LEv)
  | tagInput (tg : Tagged)
  | push (id : Nat)
  | callFunc
  | pop (id : Nat)
  | tagOutput (tg : Tagged)
deriving DecidableEq, Repr

/-- What `call_stack` records about one executing brick: its identity and
the identities of its declared children (read by the discipline check). -/
structure StackEntry where
  id : Nat
  childIds : List Nat
deriving DecidableEq, Repr

/-- The static data of one application method: its `__name__`, the declared
positional parameter names of the wrapped function excluding the leading
`self` (`inspect.getargspec` + `[1:]`), the varargs name, and the declared
`outputs` attribute (`none` models the attribute being absent, so reading
it raises `AttributeError`). -/
structure AppSpec where
  appName : String
  argNames : List String
  varargsName : String
  outputs : Option (List String)
deriving DecidableEq, Repr

/-- The outcome of running the wrapped application function. -/
inductive FuncOutcome where
  | ret (outs : List OutVal)
  | raise
deriving DecidableEq, Repr

/-- Lines 290-291: `self.call_stack and brick is not self.call_stack[-1]
and brick not in self.call_stack[-1].children`. -/
def stackViolation (stack : List StackEntry) (bid : Nat) : Bool :=
  match stack with
  | [] => false
  | top :: _ => bid != top.id && !(top.childIds.contains bid)

/-- The name given to the `i`-th positional argument: the declared name at
that position, or `<varargs_name>_<i - len(args_names)>` beyond them. -/
def inputName (argNames : List String) (varargsName : String) (i : Nat) :
    String :=
  if i < argNames.length then argNames.getD i ""
  else varargsName ++ "_" ++ toString (i - argNames.length)

/-- The input-annotation loop over positional arguments: every Theano
variable is replaced by a named, INPUT-tagged, annotated copy.  The copies
are handed to the wrapped function, whose behaviour is abstracted by
`FuncOutcome`; the tagging side effect is retained as events. -/
def tagInputs (brickId : Nat) (brickName appName : String)
    (argNames : List String) (varargsName : String) :
    Nat → List InVal → List AEv
  | _, [] => []
  | i, .var v :: rest =>
    .tagInput (copyAndTag brickId brickName appName
        (inputName argNames varargsName i) v .INPUT) ::
      tagInputs brickId brickName appName argNames varargsName (i + 1) rest
  | i, _ :: rest =>
    tagInputs brickId brickName appName argNames varargsName (i + 1) rest

/-- The input-annotation loop over keyword arguments: each variable is
tagged under its keyword name. -/
def tagKwargs (brickId : Nat) (brickName appName : String) :
    List (String × InVal) → List AEv
  | [] => []
  | (nm, .var v) :: rest =>
    .tagInput (copyAndTag brickId brickName appName nm v .INPUT) ::
      tagKwargs brickId brickName appName rest
  | _ :: rest => tagKwargs brickId brickName appName rest

/-- The output loop (lines 301-311): each variable output is renamed from
the declared `outputs` (position `i` past the declared list raises
`ValueError("Unexpected outputs")`; an absent `outputs` attribute names it
`output_<i>`), tagged OUTPUT and replaced by the copy; non-variable
outputs are left untouched. -/
def tagOutputs (brickId : Nat) (brickName appName : String)
    (outputsAttr : Option (List String)) :
    Nat → List OutVal → Except AErr (List TOut × List AEv)
  | _, [] => .ok ([], [])
  | i, .other k :: rest =>
    match tagOutputs brickId brickName appName outputsAttr (i + 1) rest with
    | .error e => .error e
    | .ok (ts, evs) => .ok (.raw (.other k) :: ts, evs)
  | i, .var v :: rest =>
    match outputsAttr with
    | none =>
      let tg := copyAndTag brickId brickName appName
        ("output_" ++ toString i) v .OUTPUT
      match tagOutputs brickId brickName appName outputsAttr (i + 1) rest with
      | .error e => .error e
      | .ok (ts, evs) => .ok (.tagged tg :: ts, .tagOutput tg :: evs)
    | some l =>
      if i < l.length then
        let tg := copyAndTag brickId brickName appName (l.getD i "") v .OUTPUT
        match tagOutputs brickId brickName appName outputsAttr (i + 1) rest with
        | .error e => .error e
        | .ok (ts, evs) => .ok (.tagged tg :: ts, .tagOutput tg :: evs)
      else .error .unexpectedOutputs

/-- Everything one `apply` invocation leaves behind: the process state, the
shared call stack, the event trace, and the returned value or exception. -/
structure ARes where
  st : St
  stack : List StackEntry
  tr : List AEv
  ret : Except AErr RetVal

/-- `Application.apply` (lines 238-318): pop the `return_dict` /
`return_list` flags (conflict is an error), auto-inject the
`application` / `application_call` arguments, allocate (and for eager
bricks initialize), annotate the inputs, enforce the call-stack
discipline, run the function with the brick pushed (popped again even on
an exception), annotate the outputs and shape the return value. -/
def applyA (brick : Brick) (spec : AppSpec) (st : St)
    (stack : List StackEntry) (returnDict returnList : Bool)
    (args : List InVal) (kwargs : List (String × InVal))
    (func : FuncOutcome) : ARes :=
  if returnDict && returnList then
    { st := st, stack := stack, tr := [], ret := .error .returnFlagsConflict }
  else
    let args1 :=
      if spec.argNames.contains "application" then
        insertPy args (spec.argNames.indexOf "application") .appObj
      else args
    let args2 :=
      if spec.argNames.contains "application_call" then
        insertPy args1 (spec.argNames.indexOf "application_call") .callObj
      else args1
    let r1 := applyLifecycle brick st
    match r1.err with
    | some e =>
      { st := r1.st, stack := stack, tr := r1.tr.map .lc,
        ret := .error (.lifecycleFail e) }
    | none =>
      let tr0 := r1.tr.map .lc ++
        tagInputs brick.cid brick.conf.name spec.appName spec.argNames
          spec.varargsName 0 args2 ++
        tagKwargs brick.cid brick.conf.name spec.appName kwargs
      if stackViolation stack brick.cid then
        { st := r1.st, stack := stack, tr := tr0,
          ret := .error .lifecycleOrdering }
      else
        let stack1 : List StackEntry :=
          { id := brick.cid, childIds := brick.childList.map Brick.cid } ::
            stack
        let tr1 := tr0 ++ [.push brick.cid, .callFunc, .pop brick.cid]
        match func with
        | .raise =>
          { st := r1.st, stack := stack1.tail, tr := tr1,
            ret := .error .appRaise }
        | .ret outs =>
          match tagOutputs brick.cid brick.conf.name spec.appName
              spec.outputs 0 outs with
          | .error e =>
            { st := r1.st, stack := stack1.tail, tr := tr1, ret := .error e }
          | .ok (touts, trOut) =>
            let ret : Except AErr RetVal :=
              if returnList then .ok (.many touts)
              else if returnDict then
                match spec.outputs with
                | none => .error .noOutputsAttr
                | some names => .ok (.dict (names.zip touts))
              else
                match touts with
                | [x] => .ok (.one x)
                | xs => .ok (.many xs)
            { st := r1.st, stack := stack1.tail, tr := tr1 ++ trOut,
              ret := ret }

/-! ## Brick subtrees, identities and the flag invariant -/

mutual

/-- All bricks in a subtree (the brick itself first). -/
def nodesOf : Brick → List Brick
  | .node c cs => .node c cs :: nodesOfList cs

def nodesOfList : List Brick → List Brick
  | [] => []
  | t :: ts => nodesOf t ++ nodesOfList ts

end

def idsOf (t : Brick) : List Nat := (nodesOf t).map Brick.cid

def idsOfList (ts : List Brick) : List Nat := (nodesOfList ts).map Brick.cid

/-- No `_push_allocation_config` hook in the subtree raises. -/
def allPushAllocOk (t : Brick) : Bool :=
  (nodesOf t).all fun n => !n.conf.pushAllocFail

def allPushAllocOkList (ts : List Brick) : Bool :=
  (nodesOfList ts).all fun n => !n.conf.pushAllocFail

/-- No `_push_initialization_config` hook in the subtree raises. -/
def allPushInitOk (t : Brick) : Bool :=
  (nodesOf t).all fun n => !n.conf.pushInitFail

def allPushInitOkList (ts : List Brick) : Bool :=
  (nodesOfList ts).all fun n => !n.conf.pushInitFail

/-- No hook involved in `allocate` raises anywhere in the subtree. -/
def allocOk (t : Brick) : Bool :=
  (nodesOf t).all fun n => !n.conf.allocFail && !n.conf.pushAllocFail

def allocOkList (ts : List Brick) : Bool :=
  (nodesOfList ts).all fun n => !n.conf.allocFail && !n.conf.pushAllocFail

/-- No lifecycle hook in the subtree raises. -/
def hooksOk (t : Brick) : Bool :=
  (nodesOf t).all fun n =>
    !n.conf.allocFail && !n.conf.pushAllocFail &&
    !n.conf.initFail && !n.conf.pushInitFail

def hooksOkList (ts : List Brick) : Bool :=
  (nodesOfList ts).all fun n =>
    !n.conf.allocFail && !n.conf.pushAllocFail &&
    !n.conf.initFail && !n.conf.pushInitFail

/-- The spec's flag invariant for one brick. -/
def flagInv (s : BrickState) : Prop :=
  (s.initialized = true → s.allocated = true) ∧
  (s.allocated = true → s.allocation_config_pushed = true) ∧
  (s.initialized = true → s.initialization_config_pushed = true)

instance (s : BrickState) : Decidable (flagInv s) :=
  inferInstanceAs (Decidable ((s.initialized = true → s.allocated = true) ∧
    (s.allocated = true → s.allocation_config_pushed = true) ∧
    (s.initialized = true → s.initialization_config_pushed = true)))

/-- The one flag implication that survives arbitrary, invocation-varying
hook behaviour: `initialized` implies `allocated`, at every brick
identity. -/
def initImpAlloc (st : St) : Prop :=
  ∀ j : Nat, (st j).initialized = true → (st j).allocated = true

/-- Strengthened per-brick invariant used for the induction: the three flag
implications, and the reachability facts that a pushed flag certifies that
every push hook in the subtree succeeds. -/
def nodeInv (n : Brick) (st : St) : Bool :=
  let s := st n.cid
  (!s.initialized || s.allocated) &&
  (!s.allocated || s.allocation_config_pushed) &&
  (!s.initialized || s.initialization_config_pushed) &&
  (!s.allocation_config_pushed || allPushAllocOk n) &&
  (!s.initialization_config_pushed || allPushInitOk n)

def treeInv (t : Brick) (st : St) : Prop :=
  ∀ n ∈ nodesOf t, nodeInv n st = true

def treeInvList (ts : List Brick) (st : St) : Prop :=
  ∀ n ∈ nodesOfList ts, nodeInv n st = true

/-- A public lifecycle operation invoked on one brick.  An operation list
pairs each invocation with the `Brick` snapshot it observes; invocations
observing the one fixed snapshot of a tree `t` are those with bricks in
`nodesOf t`. -/
inductive LOp where
  | pushAlloc
  | pushInit
  | alloc
  | init
  | applyOp
deriving DecidableEq, Repr

/-- Run one lifecycle operation on a brick; the state effect of an `apply`
invocation is its lifecycle prefix (the call-stack bookkeeping and
annotation do not touch the lifecycle flags, `applyA_st` below). -/
def runOp (p : Brick × LOp) (st : St) : St :=
  match p.2 with
  | .pushAlloc => (pushAllocationConfig p.1 st).st
  | .pushInit => (pushInitializationConfig p.1 st).st
  | .alloc => (allocate p.1 st).st
  | .init => (initializeBrick p.1 st).st
  | .applyOp => (applyLifecycle p.1 st).st

def runOps (ops : List (Brick × LOp)) (st : St) : St :=
  ops.foldl (fun s p => runOp p s) st

/-- Forget the `allocation_config_pushed` flag (the only field an
allocation-config push writes). -/
def eraseAcp (s : BrickState) : BrickState :=
  { s with allocation_config_pushed := false }

/-- Forget the `initialization_config_pushed` flag. -/
def eraseIcp (s : BrickState) : BrickState :=
  { s with initialization_config_pushed := false }

/-- The `(initialized, initialization_config_pushed)` part of a state,
untouched by `allocate`. -/
def initSide (s : BrickState) : Bool × Bool :=
  (s.initialized, s.initialization_config_pushed)

/-- Forget everything `allocate` may write. -/
def eraseAllocPart (s : BrickState) : BrickState :=
  { s with allocated := false, allocation_config_pushed := false, params := [] }

def AEv.isTagIn : AEv → Bool
  | .tagInput _ => true
  | _ => false

/-- Some output at position `i` or later past the declared-output list is a
graph variable (the condition under which the renaming loop hits an
`IndexError` and raises the configuration error). -/
def anyExcessVar (nNames : Nat) : Nat → List OutVal → Bool
  | _, [] => false
  | i, o :: rest => (decide (nNames ≤ i) && o.isVar) || anyExcessVar nNames (i + 1) rest

/-- A variable element carries the PARAMETER role and the owning brick's
back-reference; non-variable elements carry nothing. -/
def taggedOK (b : Nat) : PElem → Prop
  | .pvar _ rs as => Role.PARAMETER ∈ rs ∧ b ∈ as
  | .pother _ => True

instance (b : Nat) (e : PElem) : Decidable (taggedOK b e) :=
  match e with
  | .pvar _ rs as => inferInstanceAs (Decidable (_ ∈ rs ∧ _ ∈ as))
  | .pother _ => inferInstanceAs (Decidable True)

def allTagged (c : Parameters) : Prop :=
  ∀ e ∈ c.elems, taggedOK c.brick e

instance (c : Parameters) : Decidable (allTagged c) :=
  inferInstanceAs (Decidable (∀ e ∈ c.elems, taggedOK c.brick e))

/-- No stack-manipulation event occurs in the list. -/
def notStack (l : List AEv) : Prop :=
  ∀ i : Nat, AEv.push i ∉ l ∧ AEv.pop i ∉ l

/-! ## Basic lemmas about states, subtrees and identities -/

theorem setSt_eq (st : St) (j : Nat) (s : BrickState) : setSt st j s j = s := by
  simp [setSt]

theorem setSt_ne (st : St) (j k : Nat) (s : BrickState) (h : k ≠ j) :
    setSt st j s k = st k := by
  simp [setSt, h]

theorem idsOf_node (c : BConf) (cs : List Brick) :
    idsOf (.node c cs) = c.id :: idsOfList cs := by
  simp [idsOf, idsOfList, nodesOf, Brick.cid, Brick.conf]

theorem idsOfList_cons (t : Brick) (ts : List Brick) :
    idsOfList (t :: ts) = idsOf t ++ idsOfList ts := by
  simp [idsOfList, idsOf, nodesOfList]

theorem self_mem_nodesOf (t : Brick) : t ∈ nodesOf t := by
  cases t
  rw [nodesOf]
  exact List.mem_cons_self _ _

theorem cid_mem_idsOf (t : Brick) : t.cid ∈ idsOf t :=
  List.mem_map_of_mem _ (self_mem_nodesOf t)

mutual

theorem nodes_trans : ∀ (t m n : Brick),
    m ∈ nodesOf t → n ∈ nodesOf m → n ∈ nodesOf t
  | .node c cs, m, n, hm, hn => by
    rw [nodesOf] at hm ⊢
    rcases List.mem_cons.mp hm with h | h
    · rw [h, nodesOf] at hn
      exact hn
    · exact List.mem_cons_of_mem _ (nodes_trans_list cs m n h hn)

theorem nodes_trans_list : ∀ (ts : List Brick) (m n : Brick),
    m ∈ nodesOfList ts → n ∈ nodesOf m → n ∈ nodesOfList ts
  | t :: ts, m, n, hm, hn => by
    rw [nodesOfList] at hm ⊢
    rcases List.mem_append.mp hm with h | h
    · exact List.mem_append_left _ (nodes_trans t m n h hn)
    · exact List.mem_append_right _ (nodes_trans_list ts m n h hn)

end

mutual

theorem nodesOf_sublist : ∀ (t m : Brick),
    m ∈ nodesOf t → List.Sublist (nodesOf m) (nodesOf t)
  | .node c cs, m, hm => by
    rw [nodesOf] at hm ⊢
    rcases List.mem_cons.mp hm with h | h
    · rw [h, nodesOf]
    · exact (nodesOf_sublist_list cs m h).cons _

theorem nodesOf_sublist_list : ∀ (ts : List Brick) (m : Brick),
    m ∈ nodesOfList ts → List.Sublist (nodesOf m) (nodesOfList ts)
  | t :: ts, m, hm => by
    rw [nodesOfList] at hm ⊢
    rcases List.mem_append.mp hm with h | h
    · exact (nodesOf_sublist t m h).trans (List.sublist_append_left _ _)
    · exact (nodesOf_sublist_list ts m h).trans (List.sublist_append_right _ _)

end

theorem idsOf_sublist (t m : Brick) (hm : m ∈ nodesOf t) :
    List.Sublist (idsOf m) (idsOf t) :=
  (nodesOf_sublist t m hm).map Brick.cid

theorem idsOf_sublist_list (ts : List Brick) (m : Brick)
    (hm : m ∈ nodesOfList ts) : List.Sublist (idsOf m) (idsOfList ts) :=
  (nodesOf_sublist_list ts m hm).map Brick.cid

theorem nodes_id_inj (t : Brick) (hwf : (idsOf t).Nodup) {m n : Brick}
    (hm : m ∈ nodesOf t) (hn : n ∈ nodesOf t) (h : m.cid = n.cid) : m = n := by
  rw [idsOf] at hwf
  exact List.inj_on_of_nodup_map hwf hm hn h

theorem cid_not_mem_of_not_mem (t : Brick) (hwf : (idsOf t).Nodup)
    {m n : Brick} (hm : m ∈ nodesOf t) (hn : n ∈ nodesOf t)
    (h : n ∉ nodesOf m) : n.cid ∉ idsOf m := by
  intro hc
  rw [idsOf] at hc
  obtain ⟨n', hn', he⟩ := List.mem_map.mp hc
  have ht : n' ∈ nodesOf t := nodes_trans t m n' hm hn'
  have : n' = n := nodes_id_inj t hwf ht hn he
  exact h (this ▸ hn')

theorem nodeInv_congr (n : Brick) (st st' : St) (h : st' n.cid = st n.cid) :
    nodeInv n st' = nodeInv n st := by
  simp only [nodeInv, h]

theorem allPushAllocOk_node (c : BConf) (cs : List Brick) :
    allPushAllocOk (.node c cs) =
      (!c.pushAllocFail && allPushAllocOkList cs) := by
  simp [allPushAllocOk, allPushAllocOkList, nodesOf, Brick.conf]

theorem allPushAllocOkList_cons (t : Brick) (ts : List Brick) :
    allPushAllocOkList (t :: ts) =
      (allPushAllocOk t && allPushAllocOkList ts) := by
  simp [allPushAllocOk, allPushAllocOkList, nodesOfList]

theorem allPushInitOk_node (c : BConf) (cs : List Brick) :
    allPushInitOk (.node c cs) = (!c.pushInitFail && allPushInitOkList cs) := by
  simp [allPushInitOk, allPushInitOkList, nodesOf, Brick.conf]

theorem allPushInitOkList_cons (t : Brick) (ts : List Brick) :
    allPushInitOkList (t :: ts) =
      (allPushInitOk t && allPushInitOkList ts) := by
  simp [allPushInitOk, allPushInitOkList, nodesOfList]

theorem allocOk_node (c : BConf) (cs : List Brick) :
    allocOk (.node c cs) =
      ((!c.allocFail && !c.pushAllocFail) && allocOkList cs) := by
  simp [allocOk, allocOkList, nodesOf, Brick.conf]

theorem allocOkList_cons (t : Brick) (ts : List Brick) :
    allocOkList (t :: ts) = (allocOk t && allocOkList ts) := by
  simp [allocOk, allocOkList, nodesOfList]

theorem hooksOk_node (c : BConf) (cs : List Brick) :
    hooksOk (.node c cs) =
      ((!c.allocFail && !c.pushAllocFail && !c.initFail && !c.pushInitFail) &&
        hooksOkList cs) := by
  simp [hooksOk, hooksOkList, nodesOf, Brick.conf]

theorem hooksOkList_cons (t : Brick) (ts : List Brick) :
    hooksOkList (t :: ts) = (hooksOk t && hooksOkList ts) := by
  simp [hooksOk, hooksOkList, nodesOfList]

/-! ## Frame lemmas: a lifecycle call only mutates bricks of its subtree -/

mutual

theorem pushAllocationConfig_frame : ∀ (t : Brick) (st : St) (j : Nat),
    j ∉ idsOf t → (pushAllocationConfig t st).st j = st j
  | .node c cs, st, j, hj => by
    rw [idsOf_node] at hj
    have hjc : j ≠ c.id := fun h => hj (h ▸ List.mem_cons_self _ _)
    have hjcs : j ∉ idsOfList cs := fun h => hj (List.mem_cons_of_mem _ h)
    simp only [pushAllocationConfig]
    split
    · rfl
    · split
      · dsimp only
        rw [pushAllocationConfigList_frame cs _ j hjcs, setSt_ne st c.id j _ hjc]
      · dsimp only
        rw [setSt_ne _ c.id j _ hjc,
          pushAllocationConfigList_frame cs _ j hjcs, setSt_ne st c.id j _ hjc]

theorem pushAllocationConfigList_frame : ∀ (ts : List Brick) (st : St) (j : Nat),
    j ∉ idsOfList ts → (pushAllocationConfigList ts st).st j = st j
  | [], _, _, _ => rfl
  | t :: ts, st, j, hj => by
    rw [idsOfList_cons] at hj
    have hjt : j ∉ idsOf t := fun h => hj (List.mem_append_left _ h)
    have hjts : j ∉ idsOfList ts := fun h => hj (List.mem_append_right _ h)
    simp only [pushAllocationConfigList]
    split
    · dsimp only
      exact pushAllocationConfig_frame t st j hjt
    · dsimp only
      rw [pushAllocationConfigList_frame ts _ j hjts,
        pushAllocationConfig_frame t st j hjt]

end

mutual

theorem pushInitializationConfig_frame : ∀ (t : Brick) (st : St) (j : Nat),
    j ∉ idsOf t → (pushInitializationConfig t st).st j = st j
  | .node c cs, st, j, hj => by
    rw [idsOf_node] at hj
    have hjc : j ≠ c.id := fun h => hj (h ▸ List.mem_cons_self _ _)
    have hjcs : j ∉ idsOfList cs := fun h => hj (List.mem_cons_of_mem _ h)
    simp only [pushInitializationConfig]
    split
    · rfl
    · split
      · dsimp only
        rw [pushInitializationConfigList_frame cs _ j hjcs,
          setSt_ne st c.id j _ hjc]
      · dsimp only
        rw [setSt_ne _ c.id j _ hjc,
          pushInitializationConfigList_frame cs _ j hjcs,
          setSt_ne st c.id j _ hjc]

theorem pushInitializationConfigList_frame :
    ∀ (ts : List Brick) (st : St) (j : Nat),
    j ∉ idsOfList ts → (pushInitializationConfigList ts st).st j = st j
  | [], _, _, _ => rfl
  | t :: ts, st, j, hj => by
    rw [idsOfList_cons] at hj
    have hjt : j ∉ idsOf t := fun h => hj (List.mem_append_left _ h)
    have hjts : j ∉ idsOfList ts := fun h => hj (List.mem_append_right _ h)
    simp only [pushInitializationConfigList]
    split
    · dsimp only
      exact pushInitializationConfig_frame t st j hjt
    · dsimp only
      rw [pushInitializationConfigList_frame ts _ j hjts,
        pushInitializationConfig_frame t st j hjt]

end

theorem maybePushAlloc_frame (t : Brick) (st : St) (j : Nat)
    (hj : j ∉ idsOf t) : (maybePushAlloc t st).st j = st j := by
  rw [maybePushAlloc]
  split
  · rfl
  · exact pushAllocationConfig_frame t st j hj

theorem maybePushInit_frame (t : Brick) (st : St) (j : Nat)
    (hj : j ∉ idsOf t) : (maybePushInit t st).st j = st j := by
  rw [maybePushInit]
  split
  · rfl
  · exact pushInitializationConfig_frame t st j hj

mutual

theorem allocate_frame : ∀ (t : Brick) (st : St) (j : Nat),
    j ∉ idsOf t → (allocate t st).st j = st j
  | .node c cs, st, j, hj => by
    have hj' := hj
    rw [idsOf_node] at hj'
    have hjc : j ≠ c.id := fun h => hj' (h ▸ List.mem_cons_self _ _)
    have hjcs : j ∉ idsOfList cs := fun h => hj' (List.mem_cons_of_mem _ h)
    simp only [allocate]
    split
    · dsimp only
      exact maybePushAlloc_frame _ st j hj
    · split
      · dsimp only
        rw [allocateList_frame cs _ j hjcs, maybePushAlloc_frame _ st j hj]
      · split
        · dsimp only
          rw [setSt_ne _ c.id j _ hjc, allocateList_frame cs _ j hjcs,
            maybePushAlloc_frame _ st j hj]
        · dsimp only
          rw [setSt_ne _ c.id j _ hjc, setSt_ne _ c.id j _ hjc,
            allocateList_frame cs _ j hjcs, maybePushAlloc_frame _ st j hj]

theorem allocateList_frame : ∀ (ts : List Brick) (st : St) (j : Nat),
    j ∉ idsOfList ts → (allocateList ts st).st j = st j
  | [], _, _, _ => rfl
  | t :: ts, st, j, hj => by
    rw [idsOfList_cons] at hj
    have hjt : j ∉ idsOf t := fun h => hj (List.mem_append_left _ h)
    have hjts : j ∉ idsOfList ts := fun h => hj (List.mem_append_right _ h)
    simp only [allocateList]
    split
    · dsimp only
      exact allocate_frame t st j hjt
    · dsimp only
      rw [allocateList_frame ts _ j hjts, allocate_frame t st j hjt]

end

theorem maybeAllocate_frame (t : Brick) (st : St) (j : Nat)
    (hj : j ∉ idsOf t) : (maybeAllocate t st).st j = st j := by
  rw [maybeAllocate]
  split
  · rfl
  · exact allocate_frame t st j hj

mutual

theorem initializeBrick_frame : ∀ (t : Brick) (st : St) (j : Nat),
    j ∉ idsOf t → (initializeBrick t st).st j = st j
  | .node c cs, st, j, hj => by
    have hj' := hj
    rw [idsOf_node] at hj'
    have hjc : j ≠ c.id := fun h => hj' (h ▸ List.mem_cons_self _ _)
    have hjcs : j ∉ idsOfList cs := fun h => hj' (List.mem_cons_of_mem _ h)
    simp only [initializeBrick]
    split
    · dsimp only
      exact maybeAllocate_frame _ st j hj
    · split
      · dsimp only
        rw [maybePushInit_frame _ _ j hj, maybeAllocate_frame _ st j hj]
      · split
        · dsimp only
          rw [initializeBrickList_frame cs _ j hjcs, maybePushInit_frame _ _ j hj,
            maybeAllocate_frame _ st j hj]
        · split
          · dsimp only
            rw [initializeBrickList_frame cs _ j hjcs,
              maybePushInit_frame _ _ j hj, maybeAllocate_frame _ st j hj]
          · dsimp only
            rw [setSt_ne _ c.id j _ hjc, initializeBrickList_frame cs _ j hjcs,
              maybePushInit_frame _ _ j hj, maybeAllocate_frame _ st j hj]

theorem initializeBrickList_frame : ∀ (ts : List Brick) (st : St) (j : Nat),
    j ∉ idsOfList ts → (initializeBrickList ts st).st j = st j
  | [], _, _, _ => rfl
  | t :: ts, st, j, hj => by
    rw [idsOfList_cons] at hj
    have hjt : j ∉ idsOf t := fun h => hj (List.mem_append_left _ h)
    have hjts : j ∉ idsOfList ts := fun h => hj (List.mem_append_right _ h)
    simp only [initializeBrickList]
    split
    · dsimp only
      exact initializeBrick_frame t st j hjt
    · dsimp only
      rw [initializeBrickList_frame ts _ j hjts,
        initializeBrick_frame t st j hjt]

end

theorem applyLifecycle_frame (t : Brick) (st : St) (j : Nat)
    (hj : j ∉ idsOf t) : (applyLifecycle t st).st j = st j := by
  simp only [applyLifecycle]
  split
  · dsimp only
    exact maybeAllocate_frame t st j hj
  · split
    · dsimp only
      rw [initializeBrick_frame t _ j hj, maybeAllocate_frame t st j hj]
    · dsimp only
      exact maybeAllocate_frame t st j hj

/-! ## Whether a push raises depends only on the hook outcomes -/

mutual

theorem pushAllocationConfig_err : ∀ (t : Brick) (st : St),
    ((pushAllocationConfig t st).err = none) ↔ allPushAllocOk t = true
  | .node c cs, st => by
    rw [allPushAllocOk_node]
    simp only [pushAllocationConfig]
    split
    · next h => simp [h]
    · next h =>
      simp only [Bool.not_eq_true] at h
      split
      · next heq =>
        have h1 := (pushAllocationConfigList_err cs _).mp heq
        simp [h, h1]
      · next e heq =>
        have h1 := pushAllocationConfigList_err cs
          (setSt st c.id { st c.id with allocation_config_pushed := true })
        rw [heq] at h1
        simp only [reduceCtorEq, false_iff] at h1
        have h2 : allPushAllocOkList cs = false := Bool.eq_false_iff.mpr h1
        simp [h, h2]

theorem pushAllocationConfigList_err : ∀ (ts : List Brick) (st : St),
    ((pushAllocationConfigList ts st).err = none) ↔
      allPushAllocOkList ts = true
  | [], st => by
    simp [pushAllocationConfigList, allPushAllocOkList, nodesOfList]
  | t :: ts, st => by
    rw [allPushAllocOkList_cons]
    simp only [pushAllocationConfigList]
    split
    · next e heq =>
      have h1 := pushAllocationConfig_err t st
      rw [heq] at h1
      simp only [reduceCtorEq, false_iff] at h1
      simp [h1]
    · next heq =>
      have h1 := (pushAllocationConfig_err t st).mp heq
      have h2 := pushAllocationConfigList_err ts (pushAllocationConfig t st).st
      simp [h1, h2]

end

mutual

theorem pushInitializationConfig_err : ∀ (t : Brick) (st : St),
    ((pushInitializationConfig t st).err = none) ↔ allPushInitOk t = true
  | .node c cs, st => by
    rw [allPushInitOk_node]
    simp only [pushInitializationConfig]
    split
    · next h => simp [h]
    · next h =>
      simp only [Bool.not_eq_true] at h
      split
      · next heq =>
        have h1 := (pushInitializationConfigList_err cs _).mp heq
        simp [h, h1]
      · next e heq =>
        have h1 := pushInitializationConfigList_err cs
          (setSt st c.id { st c.id with initialization_config_pushed := true })
        rw [heq] at h1
        simp only [reduceCtorEq, false_iff] at h1
        have h2 : allPushInitOkList cs = false := Bool.eq_false_iff.mpr h1
        simp [h, h2]

theorem pushInitializationConfigList_err : ∀ (ts : List Brick) (st : St),
    ((pushInitializationConfigList ts st).err = none) ↔
      allPushInitOkList ts = true
  | [], st => by
    simp [pushInitializationConfigList, allPushInitOkList, nodesOfList]
  | t :: ts, st => by
    rw [allPushInitOkList_cons]
    simp only [pushInitializationConfigList]
    split
    · next e heq =>
      have h1 := pushInitializationConfig_err t st
      rw [heq] at h1
      simp only [reduceCtorEq, false_iff] at h1
      simp [h1]
    · next heq =>
      have h1 := (pushInitializationConfig_err t st).mp heq
      have h2 := pushInitializationConfigList_err ts
        (pushInitializationConfig t st).st
      simp [h1, h2]

end

/-! ## Which fields each lifecycle call can touch -/

mutual

theorem pushAllocationConfig_eraseAcp : ∀ (t : Brick) (st : St) (j : Nat),
    eraseAcp ((pushAllocationConfig t st).st j) = eraseAcp (st j)
  | .node c cs, st, j => by
    simp only [pushAllocationConfig]
    split
    · rfl
    · split
      · dsimp only
        rw [pushAllocationConfigList_eraseAcp cs _ j]
        by_cases hj : j = c.id
        · subst hj
          rw [setSt_eq]
          simp [eraseAcp]
        · rw [setSt_ne _ _ _ _ hj]
      · dsimp only
        by_cases hj : j = c.id
        · subst hj
          rw [setSt_eq]
          have h2 := pushAllocationConfigList_eraseAcp cs
            (setSt st c.id { st c.id with allocation_config_pushed := true })
            c.id
          rw [setSt_eq] at h2
          simp only [eraseAcp] at h2 ⊢
          simp_all
        · rw [setSt_ne _ _ _ _ hj,
            pushAllocationConfigList_eraseAcp cs _ j, setSt_ne _ _ _ _ hj]

theorem pushAllocationConfigList_eraseAcp :
    ∀ (ts : List Brick) (st : St) (j : Nat),
    eraseAcp ((pushAllocationConfigList ts st).st j) = eraseAcp (st j)
  | [], _, _ => rfl
  | t :: ts, st, j => by
    simp only [pushAllocationConfigList]
    split
    · dsimp only
      exact pushAllocationConfig_eraseAcp t st j
    · dsimp only
      rw [pushAllocationConfigList_eraseAcp ts _ j,
        pushAllocationConfig_eraseAcp t st j]

end

mutual

theorem pushInitializationConfig_eraseIcp : ∀ (t : Brick) (st : St) (j : Nat),
    eraseIcp ((pushInitializationConfig t st).st j) = eraseIcp (st j)
  | .node c cs, st, j => by
    simp only [pushInitializationConfig]
    split
    · rfl
    · split
      · dsimp only
        rw [pushInitializationConfigList_eraseIcp cs _ j]
        by_cases hj : j = c.id
        · subst hj
          rw [setSt_eq]
          simp [eraseIcp]
        · rw [setSt_ne _ _ _ _ hj]
      · dsimp only
        by_cases hj : j = c.id
        · subst hj
          rw [setSt_eq]
          have h2 := pushInitializationConfigList_eraseIcp cs
            (setSt st c.id { st c.id with initialization_config_pushed := true })
            c.id
          rw [setSt_eq] at h2
          simp only [eraseIcp] at h2 ⊢
          simp_all
        · rw [setSt_ne _ _ _ _ hj,
            pushInitializationConfigList_eraseIcp cs _ j, setSt_ne _ _ _ _ hj]

theorem pushInitializationConfigList_eraseIcp :
    ∀ (ts : List Brick) (st : St) (j : Nat),
    eraseIcp ((pushInitializationConfigList ts st).st j) = eraseIcp (st j)
  | [], _, _ => rfl
  | t :: ts, st, j => by
    simp only [pushInitializationConfigList]
    split
    · dsimp only
      exact pushInitializationConfig_eraseIcp t st j
    · dsimp only
      rw [pushInitializationConfigList_eraseIcp ts _ j,
        pushInitializationConfig_eraseIcp t st j]

end

theorem stateExt (a b : BrickState) (h1 : a.allocated = b.allocated)
    (h2 : a.allocation_config_pushed = b.allocation_config_pushed)
    (h3 : a.initialized = b.initialized)
    (h4 : a.initialization_config_pushed = b.initialization_config_pushed)
    (h5 : a.params = b.params) : a = b := by
  cases a
  cases b
  simp_all

mutual

theorem pushAllocationConfig_acp : ∀ (t : Brick) (st : St),
    (pushAllocationConfig t st).err = none → ∀ j ∈ idsOf t,
      ((pushAllocationConfig t st).st j).allocation_config_pushed = true
  | .node c cs, st => by
    rw [idsOf_node]
    simp only [pushAllocationConfig]
    split
    · intro h
      simp at h
    · split
      · next heq =>
        intro _ j hj
        dsimp only
        rcases List.mem_cons.mp hj with hje | hjm
        · by_cases hmem : j ∈ idsOfList cs
          · exact pushAllocationConfigList_acp cs _ heq j hmem
          · rw [pushAllocationConfigList_frame cs _ j hmem]
            subst hje
            rw [setSt_eq]
        · exact pushAllocationConfigList_acp cs _ heq j hjm
      · intro h
        simp at h

theorem pushAllocationConfigList_acp : ∀ (ts : List Brick) (st : St),
    (pushAllocationConfigList ts st).err = none → ∀ j ∈ idsOfList ts,
      ((pushAllocationConfigList ts st).st j).allocation_config_pushed = true
  | [], st => by
    intro _ j hj
    simp [idsOfList, nodesOfList] at hj
  | t :: ts, st => by
    rw [idsOfList_cons]
    simp only [pushAllocationConfigList]
    split
    · intro h
      simp at h
    · next heq =>
      intro h2 j hj
      dsimp only
      rcases List.mem_append.mp hj with hjt | hjts
      · by_cases hmem : j ∈ idsOfList ts
        · exact pushAllocationConfigList_acp ts _ h2 j hmem
        · rw [pushAllocationConfigList_frame ts _ j hmem]
          exact pushAllocationConfig_acp t st heq j hjt
      · exact pushAllocationConfigList_acp ts _ h2 j hjts

end

mutual

theorem pushInitializationConfig_icp : ∀ (t : Brick) (st : St),
    (pushInitializationConfig t st).err = none → ∀ j ∈ idsOf t,
      ((pushInitializationConfig t st).st j).initialization_config_pushed =
        true
  | .node c cs, st => by
    rw [idsOf_node]
    simp only [pushInitializationConfig]
    split
    · intro h
      simp at h
    · split
      · next heq =>
        intro _ j hj
        dsimp only
        rcases List.mem_cons.mp hj with hje | hjm
        · by_cases hmem : j ∈ idsOfList cs
          · exact pushInitializationConfigList_icp cs _ heq j hmem
          · rw [pushInitializationConfigList_frame cs _ j hmem]
            subst hje
            rw [setSt_eq]
        · exact pushInitializationConfigList_icp cs _ heq j hjm
      · intro h
        simp at h

theorem pushInitializationConfigList_icp : ∀ (ts : List Brick) (st : St),
    (pushInitializationConfigList ts st).err = none → ∀ j ∈ idsOfList ts,
      ((pushInitializationConfigList ts st).st j).initialization_config_pushed =
        true
  | [], st => by
    intro _ j hj
    simp [idsOfList, nodesOfList] at hj
  | t :: ts, st => by
    rw [idsOfList_cons]
    simp only [pushInitializationConfigList]
    split
    · intro h
      simp at h
    · next heq =>
      intro h2 j hj
      dsimp only
      rcases List.mem_append.mp hj with hjt | hjts
      · by_cases hmem : j ∈ idsOfList ts
        · exact pushInitializationConfigList_icp ts _ h2 j hmem
        · rw [pushInitializationConfigList_frame ts _ j hmem]
          exact pushInitializationConfig_icp t st heq j hjt
      · exact pushInitializationConfigList_icp ts _ h2 j hjts

end

/-- On success, an allocation-config push sets exactly the subtree's
`allocation_config_pushed` flags and touches nothing else. -/
theorem pushAllocationConfig_success (t : Brick) (st : St)
    (h : (pushAllocationConfig t st).err = none) (j : Nat) :
    (pushAllocationConfig t st).st j =
      if j ∈ idsOf t then { st j with allocation_config_pushed := true }
      else st j := by
  by_cases hj : j ∈ idsOf t
  · rw [if_pos hj]
    have h1 := pushAllocationConfig_eraseAcp t st j
    simp only [eraseAcp, BrickState.mk.injEq, true_and, and_true] at h1
    exact stateExt _ _ h1.1 (pushAllocationConfig_acp t st h j hj) h1.2.1
      h1.2.2.1 h1.2.2.2
  · rw [if_neg hj]
    exact pushAllocationConfig_frame t st j hj

/-- On success, an initialization-config push sets exactly the subtree's
`initialization_config_pushed` flags and touches nothing else. -/
theorem pushInitializationConfig_success (t : Brick) (st : St)
    (h : (pushInitializationConfig t st).err = none) (j : Nat) :
    (pushInitializationConfig t st).st j =
      if j ∈ idsOf t then { st j with initialization_config_pushed := true }
      else st j := by
  by_cases hj : j ∈ idsOf t
  · rw [if_pos hj]
    have h1 := pushInitializationConfig_eraseIcp t st j
    simp only [eraseIcp, BrickState.mk.injEq, true_and, and_true] at h1
    exact stateExt _ _ h1.1 h1.2.1 h1.2.2.1
      (pushInitializationConfig_icp t st h j hj) h1.2.2.2
  · rw [if_neg hj]
    exact pushInitializationConfig_frame t st j hj

theorem pushAllocationConfig_fields (t : Brick) (st : St) (j : Nat) :
    ((pushAllocationConfig t st).st j).allocated = (st j).allocated ∧
    ((pushAllocationConfig t st).st j).initialized = (st j).initialized ∧
    ((pushAllocationConfig t st).st j).initialization_config_pushed =
      (st j).initialization_config_pushed ∧
    ((pushAllocationConfig t st).st j).params = (st j).params := by
  have h := pushAllocationConfig_eraseAcp t st j
  simp only [eraseAcp, BrickState.mk.injEq, true_and, and_true] at h
  exact h

theorem pushInitializationConfig_fields (t : Brick) (st : St) (j : Nat) :
    ((pushInitializationConfig t st).st j).allocated = (st j).allocated ∧
    ((pushInitializationConfig t st).st j).allocation_config_pushed =
      (st j).allocation_config_pushed ∧
    ((pushInitializationConfig t st).st j).initialized = (st j).initialized ∧
    ((pushInitializationConfig t st).st j).params = (st j).params := by
  have h := pushInitializationConfig_eraseIcp t st j
  simp only [eraseIcp, BrickState.mk.injEq, true_and, and_true] at h
  exact h

theorem maybePushAlloc_root (t : Brick) (st : St)
    (h : (maybePushAlloc t st).err = none) :
    (maybePushAlloc t st).st t.cid =
      { st t.cid with allocation_config_pushed := true } := by
  revert h
  rw [maybePushAlloc]
  split
  · next hc =>
    intro _
    exact (stateExt _ _ rfl hc rfl rfl rfl)
  · intro h
    have h2 := pushAllocationConfig_success t st h t.cid
    rw [if_pos (cid_mem_idsOf t)] at h2
    exact h2

theorem maybePushInit_root (t : Brick) (st : St)
    (h : (maybePushInit t st).err = none) :
    (maybePushInit t st).st t.cid =
      { st t.cid with initialization_config_pushed := true } := by
  revert h
  rw [maybePushInit]
  split
  · next hc =>
    intro _
    exact (stateExt _ _ rfl rfl rfl hc rfl)
  · intro h
    have h2 := pushInitializationConfig_success t st h t.cid
    rw [if_pos (cid_mem_idsOf t)] at h2
    exact h2

/-! ## `allocate` never touches the initialization side -/

theorem eraseAllocPart_of_eraseAcp {a b : BrickState}
    (h : eraseAcp a = eraseAcp b) : eraseAllocPart a = eraseAllocPart b := by
  cases a
  cases b
  simp only [eraseAcp, BrickState.mk.injEq, true_and, and_true] at h
  obtain ⟨h1, h2, h3, h4⟩ := h
  simp [eraseAllocPart, h2, h3]

theorem maybePushAlloc_eraseAllocPart (t : Brick) (st : St) (j : Nat) :
    eraseAllocPart ((maybePushAlloc t st).st j) = eraseAllocPart (st j) := by
  rw [maybePushAlloc]
  split
  · rfl
  · exact eraseAllocPart_of_eraseAcp (pushAllocationConfig_eraseAcp t st j)

mutual

theorem allocate_eraseAllocPart : ∀ (t : Brick) (st : St) (j : Nat),
    eraseAllocPart ((allocate t st).st j) = eraseAllocPart (st j)
  | .node c cs, st, j => by
    simp only [allocate]
    split
    · dsimp only
      exact maybePushAlloc_eraseAllocPart _ st j
    · split
      · dsimp only
        rw [allocateList_eraseAllocPart cs _ j, maybePushAlloc_eraseAllocPart _ st j]
      · split
        · dsimp only
          by_cases hj : j = c.id
          · subst hj
            rw [setSt_eq]
            have h2 := allocateList_eraseAllocPart cs
              ((maybePushAlloc (.node c cs) st).st) c.id
            rw [maybePushAlloc_eraseAllocPart _ st c.id] at h2
            simp only [eraseAllocPart] at h2 ⊢
            simp_all
          · rw [setSt_ne _ _ _ _ hj, allocateList_eraseAllocPart cs _ j,
              maybePushAlloc_eraseAllocPart _ st j]
        · dsimp only
          by_cases hj : j = c.id
          · subst hj
            rw [setSt_eq, setSt_eq]
            have h2 := allocateList_eraseAllocPart cs
              ((maybePushAlloc (.node c cs) st).st) c.id
            rw [maybePushAlloc_eraseAllocPart _ st c.id] at h2
            simp only [eraseAllocPart] at h2 ⊢
            simp_all
          · rw [setSt_ne _ _ _ _ hj, setSt_ne _ _ _ _ hj,
              allocateList_eraseAllocPart cs _ j,
              maybePushAlloc_eraseAllocPart _ st j]

theorem allocateList_eraseAllocPart : ∀ (ts : List Brick) (st : St) (j : Nat),
    eraseAllocPart ((allocateList ts st).st j) = eraseAllocPart (st j)
  | [], _, _ => rfl
  | t :: ts, st, j => by
    simp only [allocateList]
    split
    · dsimp only
      exact allocate_eraseAllocPart t st j
    · dsimp only
      rw [allocateList_eraseAllocPart ts _ j, allocate_eraseAllocPart t st j]

end

theorem maybeAllocate_eraseAllocPart (t : Brick) (st : St) (j : Nat) :
    eraseAllocPart ((maybeAllocate t st).st j) = eraseAllocPart (st j) := by
  rw [maybeAllocate]
  split
  · rfl
  · exact allocate_eraseAllocPart t st j

/-! ## Hook-outcome implications and success of allocate / initialize -/

theorem allocOk_imp_pushOk (t : Brick) (h : allocOk t = true) :
    allPushAllocOk t = true := by
  simp only [allocOk, List.all_eq_true, Bool.and_eq_true] at h
  simp only [allPushAllocOk, List.all_eq_true]
  exact fun n hn => (h n hn).2

theorem allocOkList_imp_pushOkList (ts : List Brick)
    (h : allocOkList ts = true) : allPushAllocOkList ts = true := by
  simp only [allocOkList, List.all_eq_true, Bool.and_eq_true] at h
  simp only [allPushAllocOkList, List.all_eq_true]
  exact fun n hn => (h n hn).2

theorem hooksOk_imp_allocOk (t : Brick) (h : hooksOk t = true) :
    allocOk t = true := by
  simp only [hooksOk, List.all_eq_true, Bool.and_eq_true] at h
  simp only [allocOk, List.all_eq_true, Bool.and_eq_true]
  exact fun n hn => (h n hn).1.1

theorem hooksOkList_imp_allocOkList (ts : List Brick)
    (h : hooksOkList ts = true) : allocOkList ts = true := by
  simp only [hooksOkList, List.all_eq_true, Bool.and_eq_true] at h
  simp only [allocOkList, List.all_eq_true, Bool.and_eq_true]
  exact fun n hn => (h n hn).1.1

theorem hooksOk_imp_pushInitOk (t : Brick) (h : hooksOk t = true) :
    allPushInitOk t = true := by
  simp only [hooksOk, List.all_eq_true, Bool.and_eq_true] at h
  simp only [allPushInitOk, List.all_eq_true]
  exact fun n hn => (h n hn).2

theorem hooksOkList_imp_pushInitOkList (ts : List Brick)
    (h : hooksOkList ts = true) : allPushInitOkList ts = true := by
  simp only [hooksOkList, List.all_eq_true, Bool.and_eq_true] at h
  simp only [allPushInitOkList, List.all_eq_true]
  exact fun n hn => (h n hn).2

mutual

theorem allocate_ok : ∀ (t : Brick) (st : St),
    allocOk t = true → (allocate t st).err = none
  | .node c cs, st => by
    intro h
    rw [allocOk_node] at h
    simp only [Bool.and_eq_true, Bool.not_eq_true'] at h
    have h1 : (maybePushAlloc (.node c cs) st).err = none := by
      rw [maybePushAlloc]
      split
      · rfl
      · apply (pushAllocationConfig_err _ _).mpr
        rw [allPushAllocOk_node]
        simp only [Bool.and_eq_true, Bool.not_eq_true']
        exact ⟨h.1.2, allocOkList_imp_pushOkList cs h.2⟩
    simp only [allocate]
    split
    · next e heq =>
      rw [h1] at heq
      simp at heq
    · have h2 : (allocateList cs ((maybePushAlloc (.node c cs) st).st)).err =
          none := allocateList_ok cs _ h.2
      split
      · next e heq2 =>
        rw [h2] at heq2
        simp at heq2
      · split
        · next hf =>
          rw [h.1.1] at hf
          simp at hf
        · rfl

theorem allocateList_ok : ∀ (ts : List Brick) (st : St),
    allocOkList ts = true → (allocateList ts st).err = none
  | [], _ => fun _ => rfl
  | t :: ts, st => by
    intro h
    rw [allocOkList_cons] at h
    simp only [Bool.and_eq_true] at h
    have h1 : (allocate t st).err = none := allocate_ok t st h.1
    simp only [allocateList]
    split
    · next e heq =>
      rw [h1] at heq
      simp at heq
    · dsimp only
      exact allocateList_ok ts _ h.2

end

theorem maybeAllocate_ok (t : Brick) (st : St) (h : allocOk t = true) :
    (maybeAllocate t st).err = none := by
  rw [maybeAllocate]
  split
  · rfl
  · exact allocate_ok t st h

theorem allocate_allocated (t : Brick) (st : St)
    (h : (allocate t st).err = none) :
    ((allocate t st).st t.cid).allocated = true := by
  cases t with
  | node c cs =>
    revert h
    simp only [allocate]
    split
    · intro h
      simp at h
    · split
      · intro h
        simp at h
      · split
        · intro h
          simp at h
        · intro _
          dsimp only [Brick.cid, Brick.conf]
          rw [setSt_eq]

theorem maybePushAlloc_allocated (t : Brick) (st : St) (j : Nat) :
    ((maybePushAlloc t st).st j).allocated = (st j).allocated := by
  rw [maybePushAlloc]
  split
  · rfl
  · exact (pushAllocationConfig_fields t st j).1

theorem maybePushInit_initialized (t : Brick) (st : St) (j : Nat) :
    ((maybePushInit t st).st j).initialized = (st j).initialized := by
  rw [maybePushInit]
  split
  · rfl
  · exact (pushInitializationConfig_fields t st j).2.2.1

theorem maybePushInit_allocated (t : Brick) (st : St) (j : Nat) :
    ((maybePushInit t st).st j).allocated = (st j).allocated := by
  rw [maybePushInit]
  split
  · rfl
  · exact (pushInitializationConfig_fields t st j).1

mutual

theorem allocate_allocated_mono : ∀ (t : Brick) (st : St) (j : Nat),
    (st j).allocated = true → ((allocate t st).st j).allocated = true
  | .node c cs, st, j => by
    intro h
    simp only [allocate]
    split
    · dsimp only
      rw [maybePushAlloc_allocated]
      exact h
    · split
      · dsimp only
        apply allocateList_allocated_mono cs _ j
        rw [maybePushAlloc_allocated]
        exact h
      · split
        · dsimp only
          by_cases hj : j = c.id
          · subst hj
            rw [setSt_eq]
            show ((allocateList cs _).st c.id).allocated = true
            apply allocateList_allocated_mono cs _ c.id
            rw [maybePushAlloc_allocated]
            exact h
          · rw [setSt_ne _ _ _ _ hj]
            apply allocateList_allocated_mono cs _ j
            rw [maybePushAlloc_allocated]
            exact h
        · dsimp only
          by_cases hj : j = c.id
          · subst hj
            rw [setSt_eq]
          · rw [setSt_ne _ _ _ _ hj, setSt_ne _ _ _ _ hj]
            apply allocateList_allocated_mono cs _ j
            rw [maybePushAlloc_allocated]
            exact h

theorem allocateList_allocated_mono : ∀ (ts : List Brick) (st : St) (j : Nat),
    (st j).allocated = true → ((allocateList ts st).st j).allocated = true
  | [], _, _ => fun h => h
  | t :: ts, st, j => by
    intro h
    simp only [allocateList]
    split
    · dsimp only
      exact allocate_allocated_mono t st j h
    · dsimp only
      exact allocateList_allocated_mono ts _ j
        (allocate_allocated_mono t st j h)

end

theorem maybeAllocate_allocated_mono (t : Brick) (st : St) (j : Nat)
    (h : (st j).allocated = true) :
    ((maybeAllocate t st).st j).allocated = true := by
  rw [maybeAllocate]
  split
  · exact h
  · exact allocate_allocated_mono t st j h

theorem maybeAllocate_allocated (t : Brick) (st : St)
    (h : (maybeAllocate t st).err = none) :
    ((maybeAllocate t st).st t.cid).allocated = true := by
  revert h
  rw [maybeAllocate]
  split
  · next hc =>
    intro _
    exact hc
  · intro h
    exact allocate_allocated t st h

theorem maybePushInit_ok (t : Brick) (st : St) (h : allPushInitOk t = true) :
    (maybePushInit t st).err = none := by
  rw [maybePushInit]
  split
  · rfl
  · exact (pushInitializationConfig_err t st).mpr h

mutual

theorem initializeBrick_ok : ∀ (t : Brick) (st : St),
    hooksOk t = true → (initializeBrick t st).err = none
  | .node c cs, st => by
    intro h
    have hal : allocOk (.node c cs) = true := hooksOk_imp_allocOk _ h
    have hpi : allPushInitOk (.node c cs) = true := hooksOk_imp_pushInitOk _ h
    rw [hooksOk_node] at h
    simp only [Bool.and_eq_true, Bool.not_eq_true'] at h
    have h1 : (maybeAllocate (.node c cs) st).err = none :=
      maybeAllocate_ok _ st hal
    simp only [initializeBrick]
    split
    · next e heq =>
      rw [h1] at heq
      simp at heq
    · have h2 : (maybePushInit (.node c cs)
          ((maybeAllocate (.node c cs) st).st)).err = none :=
        maybePushInit_ok _ _ hpi
      split
      · next e heq2 =>
        rw [h2] at heq2
        simp at heq2
      · have h3 := initializeBrickList_ok cs
          ((maybePushInit (.node c cs) ((maybeAllocate (.node c cs) st).st)).st)
          h.2
        split
        · next e heq3 =>
          rw [h3] at heq3
          simp at heq3
        · split
          · next hf =>
            rw [h.1.1.2] at hf
            simp at hf
          · rfl

theorem initializeBrickList_ok : ∀ (ts : List Brick) (st : St),
    hooksOkList ts = true → (initializeBrickList ts st).err = none
  | [], _ => fun _ => rfl
  | t :: ts, st => by
    intro h
    rw [hooksOkList_cons] at h
    simp only [Bool.and_eq_true] at h
    have h1 : (initializeBrick t st).err = none := initializeBrick_ok t st h.1
    simp only [initializeBrickList]
    split
    · next e heq =>
      rw [h1] at heq
      simp at heq
    · dsimp only
      exact initializeBrickList_ok ts _ h.2

end

theorem initializeBrick_initialized (t : Brick) (st : St)
    (h : (initializeBrick t st).err = none) :
    ((initializeBrick t st).st t.cid).initialized = true := by
  cases t with
  | node c cs =>
    revert h
    simp only [initializeBrick]
    split
    · intro h
      simp at h
    · split
      · intro h
        simp at h
      · split
        · intro h
          simp at h
        · split
          · intro h
            simp at h
          · intro _
            dsimp only [Brick.cid, Brick.conf]
            rw [setSt_eq]

mutual

theorem initializeBrick_allocated_mono : ∀ (t : Brick) (st : St) (j : Nat),
    (st j).allocated = true → ((initializeBrick t st).st j).allocated = true
  | .node c cs, st, j => by
    intro h
    have h1 : ((maybeAllocate (.node c cs) st).st j).allocated = true :=
      maybeAllocate_allocated_mono _ st j h
    simp only [initializeBrick]
    split
    · exact h1
    · have h2 : ((maybePushInit (.node c cs)
          ((maybeAllocate (.node c cs) st).st)).st j).allocated = true := by
        rw [maybePushInit_allocated]
        exact h1
      split
      · exact h2
      · have h3 := initializeBrickList_allocated_mono cs _ j h2
        split
        · exact h3
        · split
          · exact h3
          · dsimp only
            by_cases hj : j = c.id
            · subst hj
              rw [setSt_eq]
              exact h3
            · rw [setSt_ne _ _ _ _ hj]
              exact h3

theorem initializeBrickList_allocated_mono :
    ∀ (ts : List Brick) (st : St) (j : Nat),
    (st j).allocated = true → ((initializeBrickList ts st).st j).allocated = true
  | [], _, _ => fun h => h
  | t :: ts, st, j => by
    intro h
    simp only [initializeBrickList]
    split
    · dsimp only
      exact initializeBrick_allocated_mono t st j h
    · dsimp only
      exact initializeBrickList_allocated_mono ts _ j
        (initializeBrick_allocated_mono t st j h)

end

theorem maybeAllocate_initialized (t : Brick) (st : St) (j : Nat) :
    ((maybeAllocate t st).st j).initialized = (st j).initialized := by
  rw [maybeAllocate]
  split
  · rfl
  · have h := allocate_eraseAllocPart t st j
    simp only [eraseAllocPart, BrickState.mk.injEq, true_and, and_true] at h
    exact h.1

mutual

theorem initializeBrick_initialized_mono : ∀ (t : Brick) (st : St) (j : Nat),
    (st j).initialized = true →
      ((initializeBrick t st).st j).initialized = true
  | .node c cs, st, j => by
    intro h
    have h1 : ((maybeAllocate (.node c cs) st).st j).initialized = true := by
      rw [maybeAllocate_initialized]
      exact h
    simp only [initializeBrick]
    split
    · exact h1
    · have h2 : ((maybePushInit (.node c cs)
          ((maybeAllocate (.node c cs) st).st)).st j).initialized = true := by
        rw [maybePushInit_initialized]
        exact h1
      split
      · exact h2
      · have h3 := initializeBrickList_initialized_mono cs _ j h2
        split
        · exact h3
        · split
          · exact h3
          · dsimp only
            by_cases hj : j = c.id
            · subst hj
              rw [setSt_eq]
            · rw [setSt_ne _ _ _ _ hj]
              exact h3

theorem initializeBrickList_initialized_mono :
    ∀ (ts : List Brick) (st : St) (j : Nat),
    (st j).initialized = true →
      ((initializeBrickList ts st).st j).initialized = true
  | [], _, _ => fun h => h
  | t :: ts, st, j => by
    intro h
    simp only [initializeBrickList]
    split
    · dsimp only
      exact initializeBrick_initialized_mono t st j h
    · dsimp only
      exact initializeBrickList_initialized_mono ts _ j
        (initializeBrick_initialized_mono t st j h)

end

/-! ## Preservation of the strengthened invariant -/

theorem nodeInv_node (c : BConf) (cs : List Brick) (st : St) :
    nodeInv (.node c cs) st =
      ((!(st c.id).initialized || (st c.id).allocated) &&
        (!(st c.id).allocated || (st c.id).allocation_config_pushed) &&
        (!(st c.id).initialized || (st c.id).initialization_config_pushed) &&
        (!(st c.id).allocation_config_pushed || allPushAllocOk (.node c cs)) &&
        (!(st c.id).initialization_config_pushed ||
          allPushInitOk (.node c cs))) := rfl

theorem treeInv_root (c : BConf) (cs : List Brick) (st : St)
    (h : treeInv (.node c cs) st) : nodeInv (.node c cs) st = true :=
  h _ (self_mem_nodesOf _)

theorem treeInv_children (c : BConf) (cs : List Brick) (st : St)
    (h : treeInv (.node c cs) st) : treeInvList cs st := fun n hn =>
  h n (by rw [nodesOf]; exact List.mem_cons_of_mem _ hn)

theorem treeInvList_head (t : Brick) (ts : List Brick) (st : St)
    (h : treeInvList (t :: ts) st) : treeInv t st := fun n hn =>
  h n (by rw [nodesOfList]; exact List.mem_append_left _ hn)

theorem treeInvList_tail (t : Brick) (ts : List Brick) (st : St)
    (h : treeInvList (t :: ts) st) : treeInvList ts st := fun n hn =>
  h n (by rw [nodesOfList]; exact List.mem_append_right _ hn)

theorem cid_ne_of_mem_list (c : BConf) (cs : List Brick) (n : Brick)
    (hnd : c.id ∉ idsOfList cs) (hn : n ∈ nodesOfList cs) : n.cid ≠ c.id :=
  fun h => hnd (h ▸ List.mem_map_of_mem _ hn)

mutual

theorem pushAllocationConfig_inv : ∀ (t : Brick) (st : St),
    (idsOf t).Nodup → treeInv t st → treeInv t (pushAllocationConfig t st).st
  | .node c cs, st => by
    intro hwf hinv
    have hnd : c.id ∉ idsOfList cs := by
      rw [idsOf_node] at hwf
      exact (List.nodup_cons.mp hwf).1
    have hndl : (idsOfList cs).Nodup := by
      rw [idsOf_node] at hwf
      exact (List.nodup_cons.mp hwf).2
    have hinvl : treeInvList cs st := treeInv_children c cs st hinv
    have hroot := treeInv_root c cs st hinv
    rw [nodeInv_node] at hroot
    simp only [Bool.and_eq_true] at hroot
    simp only [pushAllocationConfig]
    split
    · exact hinv
    · next hfail =>
      have hfail' : c.pushAllocFail = false := by
        simp only [Bool.not_eq_true] at hfail
        exact hfail
      have hinvl1 : treeInvList cs
          (setSt st c.id { st c.id with allocation_config_pushed := true }) := by
        intro n hn
        rw [nodeInv_congr n st _
          (setSt_ne st c.id n.cid _ (cid_ne_of_mem_list c cs n hnd hn))]
        exact hinvl n hn
      split
      · next heq =>
        have hok : allPushAllocOk (.node c cs) = true := by
          rw [allPushAllocOk_node, hfail']
          simp only [Bool.not_false, Bool.true_and]
          exact (pushAllocationConfigList_err cs _).mp heq
        intro n hn
        dsimp only
        rw [nodesOf] at hn
        rcases List.mem_cons.mp hn with h1 | h2
        · subst h1
          have hr : (pushAllocationConfigList cs
              (setSt st c.id
                { st c.id with allocation_config_pushed := true })).st c.id =
              { st c.id with allocation_config_pushed := true } := by
            rw [pushAllocationConfigList_frame cs _ c.id hnd, setSt_eq]
          rw [nodeInv_node, hr]
          simp only [Bool.and_eq_true]
          exact ⟨⟨⟨⟨hroot.1.1.1.1, by simp⟩, hroot.1.1.2⟩,
            by simp [hok]⟩, hroot.2⟩
        · exact pushAllocationConfigList_inv cs _ hndl hinvl1 n h2
      · next e heq =>
        have hnotok : allPushAllocOkList cs = false := by
          have h1 := pushAllocationConfigList_err cs
            (setSt st c.id { st c.id with allocation_config_pushed := true })
          rw [heq] at h1
          simp only [reduceCtorEq, false_iff] at h1
          exact Bool.eq_false_iff.mpr h1
        intro n hn
        dsimp only
        rw [nodesOf] at hn
        rcases List.mem_cons.mp hn with h1 | h2
        · subst h1
          have hr : (setSt (pushAllocationConfigList cs
              (setSt st c.id
                { st c.id with allocation_config_pushed := true })).st c.id
              { (pushAllocationConfigList cs
                  (setSt st c.id
                    { st c.id with allocation_config_pushed := true })).st c.id
                  with allocation_config_pushed := false }) c.id =
              { st c.id with allocation_config_pushed := false } := by
            rw [setSt_eq, pushAllocationConfigList_frame cs _ c.id hnd,
              setSt_eq]
          have halloc : (st c.id).allocated = false := by
            cases halloc' : (st c.id).allocated with
            | false => rfl
            | true =>
            exfalso
            have hacp : (st c.id).allocation_config_pushed = true := by
              have := hroot.1.1.1.2
              simp only [halloc', Bool.not_true, Bool.false_or] at this
              exact this
            have hok2 : allPushAllocOk (.node c cs) = true := by
              have := hroot.1.2
              simp only [hacp, Bool.not_true, Bool.false_or] at this
              exact this
            rw [allPushAllocOk_node] at hok2
            simp only [Bool.and_eq_true] at hok2
            rw [hok2.2] at hnotok
            simp at hnotok
          rw [nodeInv_node, hr]
          simp only [Bool.and_eq_true]
          refine ⟨⟨⟨⟨?_, by simp [halloc]⟩, hroot.1.1.2⟩, by simp⟩, hroot.2⟩
          have hinit : (st c.id).initialized = true →
              (st c.id).allocated = true := by
            intro hi
            have := hroot.1.1.1.1
            simp only [hi, Bool.not_true, Bool.false_or] at this
            exact this
          cases hini : (st c.id).initialized with
          | false => simp
          | true =>
            rw [halloc] at hinit
            have := hinit hini
            simp at this
        · have hstep := pushAllocationConfigList_inv cs _ hndl hinvl1 n h2
          rw [nodeInv_congr n _ _
            (setSt_ne _ c.id n.cid _ (cid_ne_of_mem_list c cs n hnd h2))]
          exact hstep

theorem pushAllocationConfigList_inv : ∀ (ts : List Brick) (st : St),
    (idsOfList ts).Nodup → treeInvList ts st →
      treeInvList ts (pushAllocationConfigList ts st).st
  | [], st => fun _ h => h
  | t :: ts, st => by
    intro hwf hinv
    rw [idsOfList_cons] at hwf
    obtain ⟨hw1, hw2, hdisj⟩ := List.nodup_append.mp hwf
    have hinvt : treeInv t st := treeInvList_head t ts st hinv
    have hinvts : treeInvList ts st := treeInvList_tail t ts st hinv
    simp only [pushAllocationConfigList]
    split
    · next e heq =>
      intro n hn
      dsimp only
      rw [nodesOfList] at hn
      rcases List.mem_append.mp hn with h1 | h2
      · exact pushAllocationConfig_inv t st hw1 hinvt n h1
      · have hne : n.cid ∉ idsOf t :=
          fun hmem => hdisj hmem (List.mem_map_of_mem _ h2)
        rw [nodeInv_congr n st _ (pushAllocationConfig_frame t st _ hne)]
        exact hinvts n h2
    · next heq =>
      intro n hn
      dsimp only
      rw [nodesOfList] at hn
      have hstep : treeInvList ts (pushAllocationConfig t st).st := by
        intro m hm
        have hne : m.cid ∉ idsOf t :=
          fun hmem => hdisj hmem (List.mem_map_of_mem _ hm)
        rw [nodeInv_congr m st _ (pushAllocationConfig_frame t st _ hne)]
        exact hinvts m hm
      rcases List.mem_append.mp hn with h1 | h2
      · have hne : n.cid ∉ idsOfList ts :=
          fun hmem => hdisj (List.mem_map_of_mem _ h1) hmem
        rw [nodeInv_congr n _ _ (pushAllocationConfigList_frame ts _ _ hne)]
        exact pushAllocationConfig_inv t st hw1 hinvt n h1
      · exact pushAllocationConfigList_inv ts _ hw2 hstep n h2

end

mutual

theorem pushInitializationConfig_inv : ∀ (t : Brick) (st : St),
    (idsOf t).Nodup → treeInv t st →
      treeInv t (pushInitializationConfig t st).st
  | .node c cs, st => by
    intro hwf hinv
    have hnd : c.id ∉ idsOfList cs := by
      rw [idsOf_node] at hwf
      exact (List.nodup_cons.mp hwf).1
    have hndl : (idsOfList cs).Nodup := by
      rw [idsOf_node] at hwf
      exact (List.nodup_cons.mp hwf).2
    have hinvl : treeInvList cs st := treeInv_children c cs st hinv
    have hroot := treeInv_root c cs st hinv
    rw [nodeInv_node] at hroot
    simp only [Bool.and_eq_true] at hroot
    simp only [pushInitializationConfig]
    split
    · exact hinv
    · next hfail =>
      have hfail' : c.pushInitFail = false := by
        simp only [Bool.not_eq_true] at hfail
        exact hfail
      have hinvl1 : treeInvList cs
          (setSt st c.id
            { st c.id with initialization_config_pushed := true }) := by
        intro n hn
        rw [nodeInv_congr n st _
          (setSt_ne st c.id n.cid _ (cid_ne_of_mem_list c cs n hnd hn))]
        exact hinvl n hn
      split
      · next heq =>
        have hok : allPushInitOk (.node c cs) = true := by
          rw [allPushInitOk_node, hfail']
          simp only [Bool.not_false, Bool.true_and]
          exact (pushInitializationConfigList_err cs _).mp heq
        intro n hn
        dsimp only
        rw [nodesOf] at hn
        rcases List.mem_cons.mp hn with h1 | h2
        · subst h1
          have hr : (pushInitializationConfigList cs
              (setSt st c.id
                { st c.id with
                  initialization_config_pushed := true })).st c.id =
              { st c.id with initialization_config_pushed := true } := by
            rw [pushInitializationConfigList_frame cs _ c.id hnd, setSt_eq]
          rw [nodeInv_node, hr]
          simp only [Bool.and_eq_true]
          exact ⟨⟨⟨⟨hroot.1.1.1.1, hroot.1.1.1.2⟩, by simp⟩,
            hroot.1.2⟩, by simp [hok]⟩
        · exact pushInitializationConfigList_inv cs _ hndl hinvl1 n h2
      · next e heq =>
        have hnotok : allPushInitOkList cs = false := by
          have h1 := pushInitializationConfigList_err cs
            (setSt st c.id
              { st c.id with initialization_config_pushed := true })
          rw [heq] at h1
          simp only [reduceCtorEq, false_iff] at h1
          exact Bool.eq_false_iff.mpr h1
        intro n hn
        dsimp only
        rw [nodesOf] at hn
        rcases List.mem_cons.mp hn with h1 | h2
        · subst h1
          have hr : (setSt (pushInitializationConfigList cs
              (setSt st c.id
                { st c.id with initialization_config_pushed := true })).st c.id
              { (pushInitializationConfigList cs
                  (setSt st c.id
                    { st c.id with
                      initialization_config_pushed := true })).st c.id
                  with initialization_config_pushed := false }) c.id =
              { st c.id with initialization_config_pushed := false } := by
            rw [setSt_eq, pushInitializationConfigList_frame cs _ c.id hnd,
              setSt_eq]
          have hini : (st c.id).initialized = false := by
            cases hini' : (st c.id).initialized with
            | false => rfl
            | true =>
            exfalso
            have hicp : (st c.id).initialization_config_pushed = true := by
              have := hroot.1.1.2
              simp only [hini', Bool.not_true, Bool.false_or] at this
              exact this
            have hok2 : allPushInitOk (.node c cs) = true := by
              have := hroot.2
              simp only [hicp, Bool.not_true, Bool.false_or] at this
              exact this
            rw [allPushInitOk_node] at hok2
            simp only [Bool.and_eq_true] at hok2
            rw [hok2.2] at hnotok
            simp at hnotok
          rw [nodeInv_node, hr]
          simp only [Bool.and_eq_true]
          exact ⟨⟨⟨⟨hroot.1.1.1.1, hroot.1.1.1.2⟩, by simp [hini]⟩,
            hroot.1.2⟩, by simp⟩
        · have hstep := pushInitializationConfigList_inv cs _ hndl hinvl1 n h2
          rw [nodeInv_congr n _ _
            (setSt_ne _ c.id n.cid _ (cid_ne_of_mem_list c cs n hnd h2))]
          exact hstep

theorem pushInitializationConfigList_inv : ∀ (ts : List Brick) (st : St),
    (idsOfList ts).Nodup → treeInvList ts st →
      treeInvList ts (pushInitializationConfigList ts st).st
  | [], st => fun _ h => h
  | t :: ts, st => by
    intro hwf hinv
    rw [idsOfList_cons] at hwf
    obtain ⟨hw1, hw2, hdisj⟩ := List.nodup_append.mp hwf
    have hinvt : treeInv t st := treeInvList_head t ts st hinv
    have hinvts : treeInvList ts st := treeInvList_tail t ts st hinv
    simp only [pushInitializationConfigList]
    split
    · next e heq =>
      intro n hn
      dsimp only
      rw [nodesOfList] at hn
      rcases List.mem_append.mp hn with h1 | h2
      · exact pushInitializationConfig_inv t st hw1 hinvt n h1
      · have hne : n.cid ∉ idsOf t :=
          fun hmem => hdisj hmem (List.mem_map_of_mem _ h2)
        rw [nodeInv_congr n st _ (pushInitializationConfig_frame t st _ hne)]
        exact hinvts n h2
    · next heq =>
      intro n hn
      dsimp only
      rw [nodesOfList] at hn
      have hstep : treeInvList ts (pushInitializationConfig t st).st := by
        intro m hm
        have hne : m.cid ∉ idsOf t :=
          fun hmem => hdisj hmem (List.mem_map_of_mem _ hm)
        rw [nodeInv_congr m st _ (pushInitializationConfig_frame t st _ hne)]
        exact hinvts m hm
      rcases List.mem_append.mp hn with h1 | h2
      · have hne : n.cid ∉ idsOfList ts :=
          fun hmem => hdisj (List.mem_map_of_mem _ h1) hmem
        rw [nodeInv_congr n _ _
          (pushInitializationConfigList_frame ts _ _ hne)]
        exact pushInitializationConfig_inv t st hw1 hinvt n h1
      · exact pushInitializationConfigList_inv ts _ hw2 hstep n h2

end

theorem orImp {a b : Bool} (h : (!a || b) = true) (ha : a = true) : b = true := by
  rw [ha] at h
  simpa using h

mutual

theorem allocate_inv : ∀ (t : Brick) (st : St),
    (idsOf t).Nodup → treeInv t st → treeInv t (allocate t st).st
  | .node c cs, st => by
    intro hwf hinv
    have hnd : c.id ∉ idsOfList cs := by
      rw [idsOf_node] at hwf
      exact (List.nodup_cons.mp hwf).1
    have hndl : (idsOfList cs).Nodup := by
      rw [idsOf_node] at hwf
      exact (List.nodup_cons.mp hwf).2
    have hinv1 : treeInv (.node c cs) ((maybePushAlloc (.node c cs) st).st) := by
      rw [maybePushAlloc]
      split
      · exact hinv
      · exact pushAllocationConfig_inv _ st hwf hinv
    simp only [allocate]
    split
    · exact hinv1
    · next heq =>
      have hinvl1 : treeInvList cs ((maybePushAlloc (.node c cs) st).st) :=
        treeInv_children c cs _ hinv1
      have hinv2 := allocateList_inv cs _ hndl hinvl1
      split
      · intro n hn
        dsimp only
        rw [nodesOf] at hn
        rcases List.mem_cons.mp hn with h1 | h2
        · subst h1
          rw [nodeInv_congr _ ((maybePushAlloc (.node c cs) st).st) _
            (allocateList_frame cs _ c.id hnd)]
          exact treeInv_root c cs _ hinv1
        · exact hinv2 n h2
      · have hr1 : (maybePushAlloc (.node c cs) st).st c.id =
            { st c.id with allocation_config_pushed := true } :=
          maybePushAlloc_root _ st heq
        have hr2 : (allocateList cs
            ((maybePushAlloc (.node c cs) st).st)).st c.id =
            { st c.id with allocation_config_pushed := true } := by
          rw [allocateList_frame cs _ c.id hnd, hr1]
        have hroot := treeInv_root c cs st hinv
        rw [nodeInv_node] at hroot
        simp only [Bool.and_eq_true] at hroot
        have hok : allPushAllocOk (.node c cs) = true := by
          revert heq
          rw [maybePushAlloc]
          split
          · next hc =>
            intro _
            exact orImp hroot.1.2 hc
          · intro h
            exact (pushAllocationConfig_err _ _).mp h
        split
        · intro n hn
          dsimp only
          rw [nodesOf] at hn
          rcases List.mem_cons.mp hn with h1 | h2
          · subst h1
            rw [nodeInv_node]
            simp only [setSt_eq, hr2]
            simp only [Bool.and_eq_true]
            exact ⟨⟨⟨⟨hroot.1.1.1.1, by simp⟩, hroot.1.1.2⟩,
              by simp [hok]⟩, hroot.2⟩
          · rw [nodeInv_congr n _ _
              (setSt_ne _ c.id n.cid _ (cid_ne_of_mem_list c cs n hnd h2))]
            exact hinv2 n h2
        · intro n hn
          dsimp only
          rw [nodesOf] at hn
          rcases List.mem_cons.mp hn with h1 | h2
          · subst h1
            rw [nodeInv_node]
            simp only [setSt_eq, hr2]
            simp only [Bool.and_eq_true]
            exact ⟨⟨⟨⟨by simp, by simp⟩, hroot.1.1.2⟩,
              by simp [hok]⟩, hroot.2⟩
          · have hne := cid_ne_of_mem_list c cs n hnd h2
            rw [nodeInv_congr n _ _ (setSt_ne _ c.id n.cid _ hne)]
            rw [nodeInv_congr n _ _ (setSt_ne _ c.id n.cid _ hne)]
            exact hinv2 n h2

theorem allocateList_inv : ∀ (ts : List Brick) (st : St),
    (idsOfList ts).Nodup → treeInvList ts st →
      treeInvList ts (allocateList ts st).st
  | [], st => fun _ h => h
  | t :: ts, st => by
    intro hwf hinv
    rw [idsOfList_cons] at hwf
    obtain ⟨hw1, hw2, hdisj⟩ := List.nodup_append.mp hwf
    have hinvt : treeInv t st := treeInvList_head t ts st hinv
    have hinvts : treeInvList ts st := treeInvList_tail t ts st hinv
    simp only [allocateList]
    split
    · next e heq =>
      intro n hn
      dsimp only
      rw [nodesOfList] at hn
      rcases List.mem_append.mp hn with h1 | h2
      · exact allocate_inv t st hw1 hinvt n h1
      · have hne : n.cid ∉ idsOf t :=
          fun hmem => hdisj hmem (List.mem_map_of_mem _ h2)
        rw [nodeInv_congr n st _ (allocate_frame t st _ hne)]
        exact hinvts n h2
    · next heq =>
      intro n hn
      dsimp only
      rw [nodesOfList] at hn
      have hstep : treeInvList ts (allocate t st).st := by
        intro m hm
        have hne : m.cid ∉ idsOf t :=
          fun hmem => hdisj hmem (List.mem_map_of_mem _ hm)
        rw [nodeInv_congr m st _ (allocate_frame t st _ hne)]
        exact hinvts m hm
      rcases List.mem_append.mp hn with h1 | h2
      · have hne : n.cid ∉ idsOfList ts :=
          fun hmem => hdisj (List.mem_map_of_mem _ h1) hmem
        rw [nodeInv_congr n _ _ (allocateList_frame ts _ _ hne)]
        exact allocate_inv t st hw1 hinvt n h1
      · exact allocateList_inv ts _ hw2 hstep n h2

end

mutual

theorem initializeBrick_inv : ∀ (t : Brick) (st : St),
    (idsOf t).Nodup → treeInv t st → treeInv t (initializeBrick t st).st
  | .node c cs, st => by
    intro hwf hinv
    have hnd : c.id ∉ idsOfList cs := by
      rw [idsOf_node] at hwf
      exact (List.nodup_cons.mp hwf).1
    have hndl : (idsOfList cs).Nodup := by
      rw [idsOf_node] at hwf
      exact (List.nodup_cons.mp hwf).2
    have hinv1 : treeInv (.node c cs) ((maybeAllocate (.node c cs) st).st) := by
      rw [maybeAllocate]
      split
      · exact hinv
      · exact allocate_inv _ st hwf hinv
    simp only [initializeBrick]
    split
    · exact hinv1
    · next heq1 =>
      have hinv2 : treeInv (.node c cs) ((maybePushInit (.node c cs)
          ((maybeAllocate (.node c cs) st).st)).st) := by
        rw [maybePushInit]
        split
        · exact hinv1
        · exact pushInitializationConfig_inv _ _ hwf hinv1
      split
      · exact hinv2
      · next heq2 =>
        have hinvl2 : treeInvList cs ((maybePushInit (.node c cs)
            ((maybeAllocate (.node c cs) st).st)).st) :=
          treeInv_children c cs _ hinv2
        have hinv3 := initializeBrickList_inv cs _ hndl hinvl2
        have hroot3 : nodeInv (.node c cs) ((initializeBrickList cs
            ((maybePushInit (.node c cs)
              ((maybeAllocate (.node c cs) st).st)).st)).st) = true := by
          rw [nodeInv_congr _ ((maybePushInit (.node c cs)
              ((maybeAllocate (.node c cs) st).st)).st) _
            (initializeBrickList_frame cs _ c.id hnd)]
          exact treeInv_root c cs _ hinv2
        split
        · intro n hn
          dsimp only
          rw [nodesOf] at hn
          rcases List.mem_cons.mp hn with h1 | h2
          · subst h1
            exact hroot3
          · exact hinv3 n h2
        · next heq3 =>
          have hall : ((initializeBrickList cs
              ((maybePushInit (.node c cs)
                ((maybeAllocate (.node c cs) st).st)).st)).st c.id).allocated =
              true := by
            rw [initializeBrickList_frame cs _ c.id hnd,
              maybePushInit_allocated]
            exact maybeAllocate_allocated _ st heq1
          have hicp : ((initializeBrickList cs
              ((maybePushInit (.node c cs)
                ((maybeAllocate (.node c cs) st).st)).st)).st
                c.id).initialization_config_pushed = true := by
            have hm := maybePushInit_root (.node c cs) _ heq2
            simp only [Brick.cid, Brick.conf] at hm
            rw [initializeBrickList_frame cs _ c.id hnd, hm]
          split
          · intro n hn
            dsimp only
            rw [nodesOf] at hn
            rcases List.mem_cons.mp hn with h1 | h2
            · subst h1
              exact hroot3
            · exact hinv3 n h2
          · intro n hn
            dsimp only
            rw [nodesOf] at hn
            rw [nodeInv_node] at hroot3
            simp only [Bool.and_eq_true] at hroot3
            rcases List.mem_cons.mp hn with h1 | h2
            · subst h1
              rw [nodeInv_node]
              simp only [setSt_eq]
              simp only [Bool.and_eq_true]
              exact ⟨⟨⟨⟨by simp [hall], hroot3.1.1.1.2⟩, by simp [hicp]⟩,
                hroot3.1.2⟩, hroot3.2⟩
            · rw [nodeInv_congr n _ _
                (setSt_ne _ c.id n.cid _ (cid_ne_of_mem_list c cs n hnd h2))]
              exact hinv3 n h2

theorem initializeBrickList_inv : ∀ (ts : List Brick) (st : St),
    (idsOfList ts).Nodup → treeInvList ts st →
      treeInvList ts (initializeBrickList ts st).st
  | [], st => fun _ h => h
  | t :: ts, st => by
    intro hwf hinv
    rw [idsOfList_cons] at hwf
    obtain ⟨hw1, hw2, hdisj⟩ := List.nodup_append.mp hwf
    have hinvt : treeInv t st := treeInvList_head t ts st hinv
    have hinvts : treeInvList ts st := treeInvList_tail t ts st hinv
    simp only [initializeBrickList]
    split
    · next e heq =>
      intro n hn
      dsimp only
      rw [nodesOfList] at hn
      rcases List.mem_append.mp hn with h1 | h2
      · exact initializeBrick_inv t st hw1 hinvt n h1
      · have hne : n.cid ∉ idsOf t :=
          fun hmem => hdisj hmem (List.mem_map_of_mem _ h2)
        rw [nodeInv_congr n st _ (initializeBrick_frame t st _ hne)]
        exact hinvts n h2
    · next heq =>
      intro n hn
      dsimp only
      rw [nodesOfList] at hn
      have hstep : treeInvList ts (initializeBrick t st).st := by
        intro m hm
        have hne : m.cid ∉ idsOf t :=
          fun hmem => hdisj hmem (List.mem_map_of_mem _ hm)
        rw [nodeInv_congr m st _ (initializeBrick_frame t st _ hne)]
        exact hinvts m hm
      rcases List.mem_append.mp hn with h1 | h2
      · have hne : n.cid ∉ idsOfList ts :=
          fun hmem => hdisj (List.mem_map_of_mem _ h1) hmem
        rw [nodeInv_congr n _ _ (initializeBrickList_frame ts _ _ hne)]
        exact initializeBrick_inv t st hw1 hinvt n h1
      · exact initializeBrickList_inv ts _ hw2 hstep n h2

end

theorem applyLifecycle_inv (t : Brick) (st : St) (hwf : (idsOf t).Nodup)
    (hinv : treeInv t st) : treeInv t (applyLifecycle t st).st := by
  have hinv1 : treeInv t (maybeAllocate t st).st := by
    rw [maybeAllocate]
    split
    · exact hinv
    · exact allocate_inv t st hwf hinv
  simp only [applyLifecycle]
  split
  · exact hinv1
  · split
    · dsimp only
      exact initializeBrick_inv t _ hwf hinv1
    · exact hinv1

theorem runOp_inv (t : Brick) (hwf : (idsOf t).Nodup) (b : Brick) (op : LOp)
    (hb : b ∈ nodesOf t) (st : St) (hinv : treeInv t st) :
    treeInv t (runOp (b, op) st) := by
  have hsub : (idsOf b).Nodup :=
    List.Sublist.nodup (idsOf_sublist t b hb) hwf
  have hsubinv : treeInv b st := fun n hn => hinv n (nodes_trans t b n hb hn)
  have hframe : ∀ j, j ∉ idsOf b → (runOp (b, op) st) j = st j := by
    cases op
    · exact fun j hj => pushAllocationConfig_frame b st j hj
    · exact fun j hj => pushInitializationConfig_frame b st j hj
    · exact fun j hj => allocate_frame b st j hj
    · exact fun j hj => initializeBrick_frame b st j hj
    · exact fun j hj => applyLifecycle_frame b st j hj
  have hpres : treeInv b (runOp (b, op) st) := by
    cases op
    · exact pushAllocationConfig_inv b st hsub hsubinv
    · exact pushInitializationConfig_inv b st hsub hsubinv
    · exact allocate_inv b st hsub hsubinv
    · exact initializeBrick_inv b st hsub hsubinv
    · exact applyLifecycle_inv b st hsub hsubinv
  intro n hn
  by_cases hmem : n ∈ nodesOf b
  · exact hpres n hmem
  · have hne : n.cid ∉ idsOf b := cid_not_mem_of_not_mem t hwf hb hn hmem
    rw [nodeInv_congr n st _ (hframe n.cid hne)]
    exact hinv n hn

theorem runOps_inv (t : Brick) (hwf : (idsOf t).Nodup)
    (ops : List (Brick × LOp)) (hops : ∀ p ∈ ops, p.1 ∈ nodesOf t) (st : St)
    (hinv : treeInv t st) : treeInv t (runOps ops st) := by
  induction ops generalizing st with
  | nil => exact hinv
  | cons p ops ih =>
    have h1 : treeInv t (runOp p st) := by
      have := runOp_inv t hwf p.1 p.2 (hops p (List.mem_cons_self _ _)) st hinv
      exact this
    exact ih (fun q hq => hops q (List.mem_cons_of_mem _ hq)) (runOp p st) h1

theorem treeInv_initSt (t : Brick) : treeInv t initSt := by
  intro n _
  cases n with
  | node c cs =>
    rw [nodeInv_node]
    rfl

theorem nodeInv_flagInv (n : Brick) (st : St) (h : nodeInv n st = true) :
    flagInv (st n.cid) := by
  cases n with
  | node c cs =>
    rw [nodeInv_node] at h
    simp only [Bool.and_eq_true] at h
    exact ⟨fun hi => orImp h.1.1.1.1 hi, fun ha => orImp h.1.1.1.2 ha,
      fun hi => orImp h.1.1.2 hi⟩

/-! ## Exact state left by a successful allocate, and idempotence -/

theorem maybePushAlloc_eraseAcp (t : Brick) (st : St) (j : Nat) :
    eraseAcp ((maybePushAlloc t st).st j) = eraseAcp (st j) := by
  rw [maybePushAlloc]
  split
  · rfl
  · exact pushAllocationConfig_eraseAcp t st j

mutual

theorem allocate_confOk : ∀ (t : Brick) (st : St),
    (allocate t st).err = none → ∀ m ∈ nodesOf t, m.conf.allocFail = false
  | .node c cs, st => by
    simp only [allocate]
    split
    · intro h
      simp at h
    · split
      · intro h
        simp at h
      · next heq2 =>
        split
        · intro h
          simp at h
        · next hff =>
          intro _ m hm
          rw [nodesOf] at hm
          rcases List.mem_cons.mp hm with h1 | h2
          · subst h1
            dsimp only [Brick.conf]
            simp only [Bool.not_eq_true] at hff
            exact hff
          · exact allocateList_confOk cs _ heq2 m h2

theorem allocateList_confOk : ∀ (ts : List Brick) (st : St),
    (allocateList ts st).err = none → ∀ m ∈ nodesOfList ts,
      m.conf.allocFail = false
  | [], st => by
    intro _ m hm
    simp [nodesOfList] at hm
  | t :: ts, st => by
    simp only [allocateList]
    split
    · intro h
      simp at h
    · next heq =>
      intro h m hm
      rw [nodesOfList] at hm
      rcases List.mem_append.mp hm with h1 | h2
      · exact allocate_confOk t st heq m h1
      · exact allocateList_confOk ts _ h m h2

end

mutual

theorem allocate_post : ∀ (t : Brick) (st : St), (idsOf t).Nodup →
    (allocate t st).err = none → ∀ m ∈ nodesOf t,
      (allocate t st).st m.cid =
        { st m.cid with allocated := true, allocation_config_pushed := true, params := m.conf.allocParams }
  | .node c cs, st => by
    intro hwf
    have hnd : c.id ∉ idsOfList cs := by
      rw [idsOf_node] at hwf
      exact (List.nodup_cons.mp hwf).1
    have hndl : (idsOfList cs).Nodup := by
      rw [idsOf_node] at hwf
      exact (List.nodup_cons.mp hwf).2
    simp only [allocate]
    split
    · intro h
      simp at h
    · next heq1 =>
      split
      · intro h
        simp at h
      · next heq2 =>
        split
        · intro h
          simp at h
        · intro _ m hm
          dsimp only
          rw [nodesOf] at hm
          have hr1root : (maybePushAlloc (.node c cs) st).st c.id =
              { st c.id with allocation_config_pushed := true } :=
            maybePushAlloc_root _ st heq1
          rcases List.mem_cons.mp hm with h1 | h2
          · subst h1
            dsimp only [Brick.cid, Brick.conf]
            simp only [setSt_eq]
            rw [allocateList_frame cs _ c.id hnd, hr1root]
          · have hmne : m.cid ≠ c.id := cid_ne_of_mem_list c cs m hnd h2
            rw [setSt_ne _ _ _ _ hmne, setSt_ne _ _ _ _ hmne]
            rw [allocateList_post cs _ hndl heq2 m h2]
            have he := maybePushAlloc_eraseAcp (.node c cs) st m.cid
            simp only [eraseAcp, BrickState.mk.injEq, true_and, and_true] at he
            exact stateExt _ _ rfl rfl he.2.1 he.2.2.1 rfl

theorem allocateList_post : ∀ (ts : List Brick) (st : St),
    (idsOfList ts).Nodup → (allocateList ts st).err = none →
    ∀ m ∈ nodesOfList ts,
      (allocateList ts st).st m.cid =
        { st m.cid with allocated := true, allocation_config_pushed := true, params := m.conf.allocParams }
  | [], st => by
    intro _ _ m hm
    simp [nodesOfList] at hm
  | t :: ts, st => by
    intro hwf
    rw [idsOfList_cons] at hwf
    obtain ⟨hw1, hw2, hdisj⟩ := List.nodup_append.mp hwf
    simp only [allocateList]
    split
    · intro h
      simp at h
    · next heq =>
      intro h m hm
      dsimp only
      rw [nodesOfList] at hm
      rcases List.mem_append.mp hm with h1 | h2
      · have hne : m.cid ∉ idsOfList ts :=
          fun hmem => hdisj (List.mem_map_of_mem _ h1) hmem
        rw [allocateList_frame ts _ _ hne]
        exact allocate_post t st hw1 heq m h1
      · have hne : m.cid ∉ idsOf t :=
          fun hmem => hdisj hmem (List.mem_map_of_mem _ h2)
        rw [allocateList_post ts _ hw2 h m h2, allocate_frame t st _ hne]

end

mutual

theorem allocate_idem : ∀ (t : Brick) (st : St),
    (∀ m ∈ nodesOf t, (st m.cid).allocated = true ∧
      (st m.cid).allocation_config_pushed = true ∧
      (st m.cid).params = m.conf.allocParams ∧ m.conf.allocFail = false) →
    (allocate t st).err = none ∧ (allocate t st).st = st
  | .node c cs, st => by
    intro hyp
    have hroot := hyp _ (self_mem_nodesOf _)
    simp only [Brick.cid, Brick.conf] at hroot
    have hypl : ∀ m ∈ nodesOfList cs, (st m.cid).allocated = true ∧
        (st m.cid).allocation_config_pushed = true ∧
        (st m.cid).params = m.conf.allocParams ∧ m.conf.allocFail = false :=
      fun m hm => hyp m (by rw [nodesOf]; exact List.mem_cons_of_mem _ hm)
    have e1 : maybePushAlloc (.node c cs) st =
        { st := st, err := none, tr := [] } := by
      rw [maybePushAlloc]
      dsimp only [Brick.cid, Brick.conf]
      rw [if_pos hroot.2.1]
    obtain ⟨el, es⟩ := allocate_idem_list cs st hypl
    simp only [allocate, e1, el, es]
    rw [if_neg (by rw [hroot.2.2.2]; simp)]
    refine ⟨rfl, ?_⟩
    dsimp only
    funext j
    by_cases hj : j = c.id
    · subst hj
      simp only [setSt_eq]
      exact stateExt _ _ hroot.1.symm rfl rfl rfl hroot.2.2.1.symm
    · rw [setSt_ne _ _ _ _ hj, setSt_ne _ _ _ _ hj]

theorem allocate_idem_list : ∀ (ts : List Brick) (st : St),
    (∀ m ∈ nodesOfList ts, (st m.cid).allocated = true ∧
      (st m.cid).allocation_config_pushed = true ∧
      (st m.cid).params = m.conf.allocParams ∧ m.conf.allocFail = false) →
    (allocateList ts st).err = none ∧ (allocateList ts st).st = st
  | [], st => fun _ => ⟨rfl, rfl⟩
  | t :: ts, st => by
    intro hyp
    obtain ⟨e1, s1⟩ := allocate_idem t st
      (fun m hm => hyp m (by rw [nodesOfList]; exact List.mem_append_left _ hm))
    simp only [allocateList, e1, s1]
    exact allocate_idem_list ts st
      (fun m hm => hyp m (by rw [nodesOfList]; exact List.mem_append_right _ hm))

end

/-! ## Traces and flags of a successful initialize -/

theorem initializeBrick_tr_mem (t : Brick) (st : St)
    (h : (initializeBrick t st).err = none) :
    LEv.hook t.cid .init ∈ (initializeBrick t st).tr := by
  cases t with
  | node c cs =>
    revert h
    simp only [initializeBrick]
    split
    · intro h
      simp at h
    · split
      · intro h
        simp at h
      · split
        · intro h
          simp at h
        · split
          · intro h
            simp at h
          · intro _
            dsimp only [Brick.cid, Brick.conf]
            simp

theorem initializeBrickList_tr (ts : List Brick) (st : St)
    (h : (initializeBrickList ts st).err = none) :
    ∀ t ∈ ts, LEv.hook t.cid .init ∈ (initializeBrickList ts st).tr := by
  induction ts generalizing st with
  | nil =>
    intro t ht
    simp at ht
  | cons t0 ts ih =>
    revert h
    simp only [initializeBrickList]
    split
    · intro h
      simp at h
    · next heq =>
      intro h t ht
      dsimp only at h ⊢
      rcases List.mem_cons.mp ht with h1 | h2
      · subst h1
        exact List.mem_append_left _ (initializeBrick_tr_mem t st heq)
      · exact List.mem_append_right _ (ih _ h t h2)

theorem initializeBrickList_initialized (ts : List Brick) (st : St)
    (h : (initializeBrickList ts st).err = none) :
    ∀ t ∈ ts, ((initializeBrickList ts st).st t.cid).initialized = true := by
  induction ts generalizing st with
  | nil =>
    intro t ht
    simp at ht
  | cons t0 ts ih =>
    revert h
    simp only [initializeBrickList]
    split
    · intro h
      simp at h
    · next heq =>
      intro h t ht
      dsimp only at h ⊢
      rcases List.mem_cons.mp ht with h1 | h2
      · subst h1
        exact initializeBrickList_initialized_mono ts _ t.cid
          (initializeBrick_initialized t st heq)
      · exact ih _ h t h2

theorem initializeBrick_tr_split (t : Brick) (st : St)
    (h : (initializeBrick t st).err = none) :
    ∃ pre, (initializeBrick t st).tr = pre ++ [LEv.hook t.cid .init] ∧
      ∀ cb ∈ t.childList, LEv.hook cb.cid .init ∈ pre := by
  cases t with
  | node c cs =>
    revert h
    simp only [initializeBrick]
    split
    · intro h
      simp at h
    · split
      · intro h
        simp at h
      · split
        · intro h
          simp at h
        · next heq3 =>
          split
          · intro h
            simp at h
          · intro _
            dsimp only [Brick.cid, Brick.conf, Brick.childList]
            refine ⟨(maybeAllocate (.node c cs) st).tr ++
              ((maybePushInit (.node c cs)
                ((maybeAllocate (.node c cs) st).st)).tr ++
              (initializeBrickList cs ((maybePushInit (.node c cs)
                ((maybeAllocate (.node c cs) st).st)).st)).tr), by simp, ?_⟩
            intro cb hcb
            have hm := initializeBrickList_tr cs _ heq3 cb hcb
            exact List.mem_append_right _ (List.mem_append_right _ hm)

/-! ## Error values of failing hooks, and the lifecycle prefix of apply -/

theorem allocate_hookErr (t : Brick) (st : St)
    (hpush : allPushAllocOk t = true)
    (hch : allocOkList t.childList = true)
    (hfail : t.conf.allocFail = true) :
    (allocate t st).err =
      some (if t.conf.lazy then Err.lazyWrap (.hookFail t.cid .alloc)
        else .hookFail t.cid .alloc) := by
  cases t with
  | node c cs =>
    dsimp only [Brick.cid, Brick.conf, Brick.childList] at hpush hch hfail ⊢
    have h1 : (maybePushAlloc (.node c cs) st).err = none := by
      rw [maybePushAlloc]
      split
      · rfl
      · exact (pushAllocationConfig_err _ _).mpr hpush
    have h2 : (allocateList cs ((maybePushAlloc (.node c cs) st).st)).err =
        none := allocateList_ok cs _ hch
    simp only [allocate]
    split
    · next e heq =>
      rw [h1] at heq
      simp at heq
    · split
      · next e heq =>
        rw [h2] at heq
        simp at heq
      · split
        · rfl
        · next hf =>
          exact absurd hfail hf

theorem initializeBrick_hookErr (t : Brick) (st : St)
    (hal : allocOk t = true)
    (hpush : allPushInitOk t = true)
    (hch : hooksOkList t.childList = true)
    (hfail : t.conf.initFail = true) :
    (initializeBrick t st).err =
      some (if t.conf.lazy then Err.lazyWrap (.hookFail t.cid .init)
        else .hookFail t.cid .init) := by
  cases t with
  | node c cs =>
    dsimp only [Brick.cid, Brick.conf, Brick.childList] at hal hpush hch hfail ⊢
    have h1 : (maybeAllocate (.node c cs) st).err = none :=
      maybeAllocate_ok _ st hal
    have h2 : (maybePushInit (.node c cs)
        ((maybeAllocate (.node c cs) st).st)).err = none :=
      maybePushInit_ok _ _ hpush
    have h3 : (initializeBrickList cs ((maybePushInit (.node c cs)
        ((maybeAllocate (.node c cs) st).st)).st)).err = none :=
      initializeBrickList_ok cs _ hch
    simp only [initializeBrick]
    split
    · next e heq =>
      rw [h1] at heq
      simp at heq
    · split
      · next e heq =>
        rw [h2] at heq
        simp at heq
      · split
        · next e heq =>
          rw [h3] at heq
          simp at heq
        · split
          · rfl
          · next hf =>
            exact absurd hfail hf

theorem applyLifecycle_ready (t : Brick) (st : St)
    (ha : (st t.cid).allocated = true) (hi : (st t.cid).initialized = true) :
    applyLifecycle t st = { st := st, err := none, tr := [] } := by
  simp only [applyLifecycle, maybeAllocate]
  rw [if_pos ha]
  dsimp only
  rw [hi]
  simp

theorem applyLifecycle_ok_flags (t : Brick) (st : St)
    (h : hooksOk t = true) :
    (applyLifecycle t st).err = none ∧
    ((applyLifecycle t st).st t.cid).allocated = true ∧
    (t.conf.lazy = false →
      ((applyLifecycle t st).st t.cid).initialized = true) := by
  have hal : allocOk t = true := hooksOk_imp_allocOk t h
  have h1 : (maybeAllocate t st).err = none := maybeAllocate_ok t st hal
  have h1a : ((maybeAllocate t st).st t.cid).allocated = true :=
    maybeAllocate_allocated t st h1
  simp only [applyLifecycle]
  split
  · next e heq =>
    rw [h1] at heq
    simp at heq
  · split
    · have h2 : (initializeBrick t (maybeAllocate t st).st).err = none :=
        initializeBrick_ok t _ h
      refine ⟨h2, ?_, ?_⟩
      · exact initializeBrick_allocated_mono t _ t.cid h1a
      · intro _
        exact initializeBrick_initialized t _ h2
    · next hcond =>
      refine ⟨rfl, h1a, ?_⟩
      intro hlz
      simp only [hlz, Bool.not_false, Bool.and_true, Bool.not_eq_true',
        Bool.not_eq_false] at hcond
      exact hcond

/-! ## Facts about the apply-level trace and output tagging -/

theorem tagInputs_isTagIn (bid : Nat) (bn an : String) (ans : List String)
    (vn : String) : ∀ (i : Nat) (args : List InVal),
    ∀ e ∈ tagInputs bid bn an ans vn i args, e.isTagIn = true
  | i, [] => by
    intro e he
    simp [tagInputs] at he
  | i, .var v :: rest => by
    intro e he
    rw [tagInputs] at he
    rcases List.mem_cons.mp he with h | h
    · rw [h]
      rfl
    · exact tagInputs_isTagIn bid bn an ans vn (i + 1) rest e h
  | i, .other k :: rest => fun e he =>
    tagInputs_isTagIn bid bn an ans vn (i + 1) rest e he
  | i, .appObj :: rest => fun e he =>
    tagInputs_isTagIn bid bn an ans vn (i + 1) rest e he
  | i, .callObj :: rest => fun e he =>
    tagInputs_isTagIn bid bn an ans vn (i + 1) rest e he

theorem tagKwargs_isTagIn (bid : Nat) (bn an : String) :
    ∀ (kwargs : List (String × InVal)),
    ∀ e ∈ tagKwargs bid bn an kwargs, e.isTagIn = true
  | [] => by
    intro e he
    simp [tagKwargs] at he
  | (nm, .var v) :: rest => by
    intro e he
    rw [tagKwargs] at he
    rcases List.mem_cons.mp he with h | h
    · rw [h]
      rfl
    · exact tagKwargs_isTagIn bid bn an rest e h
  | (nm, .other k) :: rest => fun e he => tagKwargs_isTagIn bid bn an rest e he
  | (nm, .appObj) :: rest => fun e he => tagKwargs_isTagIn bid bn an rest e he
  | (nm, .callObj) :: rest => fun e he => tagKwargs_isTagIn bid bn an rest e he

theorem tagOutputs_isTagOut (bid : Nat) (bn an : String)
    (oa : Option (List String)) : ∀ (i : Nat) (outs : List OutVal)
    (ts : List TOut) (evs : List AEv),
    tagOutputs bid bn an oa i outs = .ok (ts, evs) →
    ∀ e ∈ evs, ∃ tg, e = AEv.tagOutput tg
  | i, [] => by
    intro ts evs h e he
    rw [tagOutputs] at h
    injection h with h
    injection h with h1 h2
    rw [← h2] at he
    simp at he
  | i, .other k :: rest => by
    intro ts evs h e he
    rw [tagOutputs] at h
    revert h
    split
    · intro h
      simp at h
    · next heq =>
      intro h
      injection h with h
      injection h with h1 h2
      rw [← h2] at he
      exact tagOutputs_isTagOut bid bn an oa (i + 1) rest _ _ heq e he
  | i, .var v :: rest => by
    intro ts evs h e he
    simp only [tagOutputs] at h
    revert h
    split
    · split
      · intro h
        simp at h
      · next heq =>
        intro h
        injection h with h
        injection h with h1 h2
        rw [← h2] at he
        rcases List.mem_cons.mp he with h3 | h3
        · exact ⟨_, h3⟩
        · exact tagOutputs_isTagOut bid bn an _ (i + 1) rest _ _ heq e h3
    · split
      · split
        · intro h
          simp at h
        · next heq =>
          intro h
          injection h with h
          injection h with h1 h2
          rw [← h2] at he
          rcases List.mem_cons.mp he with h3 | h3
          · exact ⟨_, h3⟩
          · exact tagOutputs_isTagOut bid bn an _ (i + 1) rest _ _ heq e h3
      · intro h
        simp at h

theorem tagOutputs_spec (bid : Nat) (bn an : String) (names : List String) :
    ∀ (i : Nat) (outs : List OutVal),
    (anyExcessVar names.length i outs = true →
      tagOutputs bid bn an (some names) i outs = .error .unexpectedOutputs) ∧
    (anyExcessVar names.length i outs = false →
      ∃ ts evs, tagOutputs bid bn an (some names) i outs = .ok (ts, evs) ∧
        ts.length = outs.length)
  | i, [] => by
    constructor
    · intro h
      simp [anyExcessVar] at h
    · intro _
      exact ⟨[], [], rfl, rfl⟩
  | i, .other k :: rest => by
    have IH := tagOutputs_spec bid bn an names (i + 1) rest
    constructor
    · intro h
      simp only [anyExcessVar, OutVal.isVar, Bool.and_false, Bool.false_or]
        at h
      rw [tagOutputs, IH.1 h]
    · intro h
      simp only [anyExcessVar, OutVal.isVar, Bool.and_false, Bool.false_or]
        at h
      obtain ⟨ts, evs, he, hl⟩ := IH.2 h
      rw [tagOutputs, he]
      exact ⟨_, _, rfl, by simp [hl]⟩
  | i, .var v :: rest => by
    have IH := tagOutputs_spec bid bn an names (i + 1) rest
    by_cases hi : i < names.length
    · have hd : decide (names.length ≤ i) = false := by
        simp [Nat.not_le.mpr hi]
      constructor
      · intro h
        simp only [anyExcessVar, OutVal.isVar, hd, Bool.false_and,
          Bool.false_or] at h
        simp only [tagOutputs, if_pos hi]
        rw [IH.1 h]
      · intro h
        simp only [anyExcessVar, OutVal.isVar, hd, Bool.false_and,
          Bool.false_or] at h
        obtain ⟨ts, evs, he, hl⟩ := IH.2 h
        simp only [tagOutputs, if_pos hi]
        rw [he]
        exact ⟨_, _, rfl, by simp [hl]⟩
    · have hd : decide (names.length ≤ i) = true := by
        simp [Nat.le_of_not_lt hi]
      constructor
      · intro _
        simp only [tagOutputs, if_neg hi]
      · intro h
        simp only [anyExcessVar, OutVal.isVar, hd, Bool.true_and,
          Bool.true_or] at h
        exact Bool.noConfusion h

theorem map_fst_zip_take {β : Type} :
    ∀ (a : List String) (b : List β),
    (a.zip b).map Prod.fst = a.take b.length
  | [], _ => by simp
  | _ :: _, [] => by simp
  | x :: xs, y :: ys => by
    simp only [List.zip_cons_cons, List.map_cons, List.length_cons,
      List.take_succ_cons]
    rw [map_fst_zip_take xs ys]

theorem mem_insertPy {α : Type} :
    ∀ (l : List α) (i : Nat) (v x : α), x ∈ l → x ∈ insertPy l i v
  | l, 0, v, x => fun h => by
    rw [insertPy]
    exact List.mem_cons_of_mem _ h
  | [], _ + 1, v, x => fun h => by simp at h
  | a :: as, i + 1, v, x => by
    intro h
    rw [insertPy]
    rcases List.mem_cons.mp h with h1 | h1
    · rw [h1]
      exact List.mem_cons_self _ _
    · exact List.mem_cons_of_mem _ (mem_insertPy as i v x h1)

theorem tagInputs_has_var (bid : Nat) (bn an : String) (ans : List String)
    (vn : String) : ∀ (i : Nat) (args : List InVal) (v : Nat),
    InVal.var v ∈ args →
    ∃ tg, AEv.tagInput tg ∈ tagInputs bid bn an ans vn i args ∧
      tg.source = v
  | i, [], v => by
    intro h
    simp at h
  | i, .var w :: rest, v => by
    intro h
    rw [tagInputs]
    rcases List.mem_cons.mp h with h1 | h1
    · injection h1 with h1
      exact ⟨_, List.mem_cons_self _ _, h1.symm⟩
    · obtain ⟨tg, hm, hs⟩ := tagInputs_has_var bid bn an ans vn (i + 1) rest v h1
      exact ⟨tg, List.mem_cons_of_mem _ hm, hs⟩
  | i, .other k :: rest, v => by
    intro h
    rcases List.mem_cons.mp h with h1 | h1
    · exact absurd h1 (by simp)
    · exact tagInputs_has_var bid bn an ans vn (i + 1) rest v h1
  | i, .appObj :: rest, v => by
    intro h
    rcases List.mem_cons.mp h with h1 | h1
    · exact absurd h1 (by simp)
    · exact tagInputs_has_var bid bn an ans vn (i + 1) rest v h1
  | i, .callObj :: rest, v => by
    intro h
    rcases List.mem_cons.mp h with h1 | h1
    · exact absurd h1 (by simp)
    · exact tagInputs_has_var bid bn an ans vn (i + 1) rest v h1

/-- The shared call stack is restored by every `apply` invocation: the push
is matched by the pop in the `finally`-equivalent, and paths that never
push leave it untouched. -/
theorem applyA_stack_eq (brick : Brick) (spec : AppSpec) (st : St)
    (stack : List StackEntry) (rd rl : Bool) (args : List InVal)
    (kwargs : List (String × InVal)) (func : FuncOutcome) :
    (applyA brick spec st stack rd rl args kwargs func).stack = stack := by
  simp only [applyA]
  repeat' split
  all_goals rfl

/-! ## Support for the Parameters container and the lazy wrapper claims -/

theorem taggedOK_pAnnotate (b : Nat) (v : PElem) :
    taggedOK b (pAnnotate b v) := by
  cases v with
  | pvar vid rs as =>
    exact ⟨List.mem_append_right _ (List.mem_singleton.mpr rfl),
      List.mem_append_right _ (List.mem_singleton.mpr rfl)⟩
  | pother k => trivial

theorem insertPy_mem {α : Type} :
    ∀ (l : List α) (i : Nat) (v x : α), x ∈ insertPy l i v → x ∈ l ∨ x = v
  | l, 0, v, x => by
    intro h
    rw [insertPy] at h
    rcases List.mem_cons.mp h with h1 | h1
    · exact Or.inr h1
    · exact Or.inl h1
  | [], _ + 1, v, x => by
    intro h
    rw [insertPy] at h
    exact Or.inr (List.mem_singleton.mp h)
  | a :: as, i + 1, v, x => by
    intro h
    rw [insertPy] at h
    rcases List.mem_cons.mp h with h1 | h1
    · exact Or.inl (h1 ▸ List.mem_cons_self _ _)
    · rcases insertPy_mem as i v x h1 with h2 | h2
      · exact Or.inl (List.mem_cons_of_mem _ h2)
      · exact Or.inr h2

theorem insertPy_length {α : Type} :
    ∀ (l : List α) (i : Nat) (v : α),
    (insertPy l i v).length = l.length + 1
  | l, 0, v => by
    rw [insertPy]
    rfl
  | [], _ + 1, _ => by
    rw [insertPy]
    rfl
  | a :: as, i + 1, v => by
    rw [insertPy]
    simp [insertPy_length as i v]

theorem allTagged_insertAt (c : Parameters) (i : Nat) (v : PElem)
    (h : allTagged c) : allTagged (c.insertAt i v) := by
  intro e he
  rcases insertPy_mem c.elems i (pAnnotate c.brick v) e he with h1 | h1
  · exact h e h1
  · rw [h1]
    exact taggedOK_pAnnotate c.brick v

theorem allTagged_append (c : Parameters) (v : PElem) (h : allTagged c) :
    allTagged (c.append v) :=
  allTagged_insertAt c c.elems.length v h

theorem allTagged_setItem (c : Parameters) (i : Nat) (v : PElem)
    (h : allTagged c) : allTagged (c.setItem i v) := by
  intro e he
  rcases List.mem_or_eq_of_mem_set he with h1 | h1
  · exact h e h1
  · rw [h1]
    exact taggedOK_pAnnotate c.brick v

theorem foldl_append_tagged :
    ∀ (vs : List PElem) (c : Parameters), allTagged c →
    allTagged (vs.foldl (fun c v => c.append v) c) ∧
    (vs.foldl (fun c v => c.append v) c).elems.length =
      c.elems.length + vs.length
  | [], c => fun h => ⟨h, rfl⟩
  | v :: vs, c => by
    intro h
    have hstep := allTagged_append c v h
    have hlen : (c.append v).elems.length = c.elems.length + 1 :=
      insertPy_length c.elems c.elems.length (pAnnotate c.brick v)
    obtain ⟨h1, h2⟩ := foldl_append_tagged vs (c.append v) hstep
    refine ⟨h1, ?_⟩
    rw [List.foldl_cons] at *
    rw [h2, hlen, List.length_cons]
    omega

theorem getD_set_ne {α : Type} (l : List α) (i j : Nat) (a d : α)
    (h : i ≠ j) : (l.set i a).getD j d = l.getD j d := by
  simp [List.getD_eq_getElem?_getD, List.getElem?_set_ne h]

theorem getD_mem (l : List String) (i : Nat) (h : i < l.length) :
    l.getD i "" ∈ l := by
  have he : l.getD i "" = l.get ⟨i, h⟩ := by
    simp [List.getD_eq_getElem?_getD, List.getElem?_eq_getElem h]
  rw [he]
  exact List.get_mem l i h

theorem lookupKw_eraseKw_ne :
    ∀ (kw : List (String × PyV)) (nm nm' : String), nm' ≠ nm →
    lookupKw (eraseKw kw nm) nm' = lookupKw kw nm'
  | [], _, _, _ => rfl
  | (k, v) :: rest, nm, nm', h => by
    by_cases hk : k = nm
    · subst hk
      rw [eraseKw, if_pos rfl, lookupKw, if_neg (fun he => h he.symm)]
    · rw [eraseKw, if_neg hk, lookupKw, lookupKw]
      by_cases hk' : k = nm'
      · rw [if_pos hk', if_pos hk']
      · rw [if_neg hk', if_neg hk']
        exact lookupKw_eraseKw_ne rest nm nm' h

theorem lazyFill_conflict :
    ∀ (names : List String) (k : Nat) (args : List PyV)
    (kwargs : List (String × PyV)) (i : Nat),
    names.Nodup → i < names.length →
    (args.getD (k + i) none).isSome = true →
    (lookupKw kwargs (names.getD i "")).isSome = true →
    lazyFill names k args kwargs = .error ()
  | [], _, _, _, i => by
    intro _ hi
    simp at hi
  | nm :: rest, k, args, kwargs, i => by
    intro hnd hi hpos hkw
    rw [lazyFill]
    cases i with
    | zero =>
      cases hlk : lookupKw kwargs nm with
      | none =>
        have : (nm :: rest).getD 0 "" = nm := rfl
        rw [this, hlk] at hkw
        simp at hkw
      | some w =>
        dsimp only
        rw [if_pos ?_]
        intro he
        rw [Nat.add_zero] at hpos
        rw [he] at hpos
        simp at hpos
    | succ j =>
      have hnd' : rest.Nodup := (List.nodup_cons.mp hnd).2
      have hnm : nm ∉ rest := (List.nodup_cons.mp hnd).1
      have hj : j < rest.length := Nat.lt_of_succ_lt_succ hi
      have hgd : (nm :: rest).getD (j + 1) "" = rest.getD j "" := rfl
      rw [hgd] at hkw
      cases hlk : lookupKw kwargs nm with
      | none =>
        dsimp only
        refine lazyFill_conflict rest (k + 1) args kwargs j hnd' hj ?_ hkw
        rw [show k + 1 + j = k + (j + 1) from by omega]
        exact hpos
      | some w =>
        dsimp only
        by_cases hc : args.getD k none ≠ none
        · rw [if_pos hc]
        · rw [if_neg hc]
          refine lazyFill_conflict rest (k + 1) (args.set k w)
            (eraseKw kwargs nm) j hnd' hj ?_ ?_
          · rw [getD_set_ne args k (k + 1 + j) w none (by omega),
              show k + 1 + j = k + (j + 1) from by omega]
            exact hpos
          · rw [lookupKw_eraseKw_ne kwargs nm (rest.getD j "")
              (fun he => hnm (he ▸ getD_mem rest j hj))]
            exact hkw

/-! ## `initialized => allocated` survives arbitrary hook behaviour

Every lifecycle operation preserves `initImpAlloc`, with no assumption on
the hook outcomes the invocation observes: the two config pushes only move
their own pushed flag (in particular the rollback on a child failure),
`allocate` only ever sets `allocated`, and `initialize` marks a brick
initialized only after its (possibly re-run) allocation succeeded. -/

theorem pushAllocationConfig_initImpAlloc (t : Brick) (st : St)
    (h : initImpAlloc st) : initImpAlloc (pushAllocationConfig t st).st := by
  intro j hj
  have he := pushAllocationConfig_eraseAcp t st j
  have hi0 := congrArg BrickState.initialized he
  have ha0 := congrArg BrickState.allocated he
  have hi : ((pushAllocationConfig t st).st j).initialized =
      (st j).initialized := hi0
  have ha : ((pushAllocationConfig t st).st j).allocated =
      (st j).allocated := ha0
  rw [hi] at hj
  rw [ha]
  exact h j hj

theorem pushInitializationConfig_initImpAlloc (t : Brick) (st : St)
    (h : initImpAlloc st) :
    initImpAlloc (pushInitializationConfig t st).st := by
  intro j hj
  have he := pushInitializationConfig_eraseIcp t st j
  have hi0 := congrArg BrickState.initialized he
  have ha0 := congrArg BrickState.allocated he
  have hi : ((pushInitializationConfig t st).st j).initialized =
      (st j).initialized := hi0
  have ha : ((pushInitializationConfig t st).st j).allocated =
      (st j).allocated := ha0
  rw [hi] at hj
  rw [ha]
  exact h j hj

theorem allocate_initImpAlloc (t : Brick) (st : St) (h : initImpAlloc st) :
    initImpAlloc (allocate t st).st := by
  intro j hj
  have hi0 := congrArg BrickState.initialized (allocate_eraseAllocPart t st j)
  have hi : ((allocate t st).st j).initialized = (st j).initialized := hi0
  rw [hi] at hj
  exact allocate_allocated_mono t st j (h j hj)

theorem maybeAllocate_initImpAlloc (t : Brick) (st : St)
    (h : initImpAlloc st) : initImpAlloc (maybeAllocate t st).st := by
  rw [maybeAllocate]
  split
  · exact h
  · exact allocate_initImpAlloc t st h

theorem maybePushInit_initImpAlloc (t : Brick) (st : St)
    (h : initImpAlloc st) : initImpAlloc (maybePushInit t st).st := by
  intro j hj
  rw [maybePushInit_initialized t st j] at hj
  rw [maybePushInit_allocated t st j]
  exact h j hj

mutual

theorem initializeBrick_initImpAlloc : ∀ (t : Brick) (st : St),
    initImpAlloc st → initImpAlloc (initializeBrick t st).st
  | .node c cs, st => by
    intro h
    simp only [initializeBrick]
    split
    · exact maybeAllocate_initImpAlloc _ st h
    · next herr1 =>
      have h1 := maybeAllocate_initImpAlloc (Brick.node c cs) st h
      split
      · exact maybePushInit_initImpAlloc _ _ h1
      · have h2 := maybePushInit_initImpAlloc (Brick.node c cs) _ h1
        split
        · exact initializeBrickList_initImpAlloc cs _ h2
        · have h3 := initializeBrickList_initImpAlloc cs _ h2
          have ha1 : ((maybeAllocate (Brick.node c cs) st).st c.id).allocated
              = true := maybeAllocate_allocated (Brick.node c cs) st herr1
          have ha2 := maybePushInit_allocated (Brick.node c cs)
            (maybeAllocate (Brick.node c cs) st).st c.id
          rw [ha1] at ha2
          have ha3 := initializeBrickList_allocated_mono cs
            (maybePushInit (Brick.node c cs)
              (maybeAllocate (Brick.node c cs) st).st).st c.id ha2
          split
          · exact h3
          · dsimp only
            intro j hj
            by_cases hjc : j = c.id
            · subst hjc
              rw [setSt_eq]
              exact ha3
            · rw [setSt_ne _ _ _ _ hjc] at hj ⊢
              exact h3 j hj

theorem initializeBrickList_initImpAlloc : ∀ (ts : List Brick) (st : St),
    initImpAlloc st → initImpAlloc (initializeBrickList ts st).st
  | [], _ => fun h => h
  | t :: ts, st => by
    intro h
    simp only [initializeBrickList]
    split
    · exact initializeBrick_initImpAlloc t st h
    · exact initializeBrickList_initImpAlloc ts _
        (initializeBrick_initImpAlloc t st h)

end

theorem applyLifecycle_initImpAlloc (t : Brick) (st : St)
    (h : initImpAlloc st) : initImpAlloc (applyLifecycle t st).st := by
  simp only [applyLifecycle]
  split
  · exact maybeAllocate_initImpAlloc t st h
  · split
    · exact initializeBrick_initImpAlloc t _ (maybeAllocate_initImpAlloc t st h)
    · exact maybeAllocate_initImpAlloc t st h

theorem runOp_initImpAlloc (p : Brick × LOp) (st : St) (h : initImpAlloc st) :
    initImpAlloc (runOp p st) := by
  cases p with
  | mk b op =>
    cases op
    · exact pushAllocationConfig_initImpAlloc b st h
    · exact pushInitializationConfig_initImpAlloc b st h
    · exact allocate_initImpAlloc b st h
    · exact initializeBrick_initImpAlloc b st h
    · exact applyLifecycle_initImpAlloc b st h

theorem runOps_initImpAlloc : ∀ (ops : List (Brick × LOp)) (st : St),
    initImpAlloc st → initImpAlloc (runOps ops st)
  | [], _ => fun h => h
  | p :: ops, st => fun h =>
    runOps_initImpAlloc ops (runOp p st) (runOp_initImpAlloc p st h)

theorem initSt_initImpAlloc : initImpAlloc initSt := by
  intro j hj
  exact absurd hj (by simp [initSt])

/-! ## The claims -/

/-- C3 (amended): the hooks are arbitrary subclass code, so across a
sequence of public lifecycle operations an invocation may observe
different hook outcomes (each operation carries the outcome snapshot it
observes).  Under arbitrary, invocation-varying hook behaviour the
implication initialized implies allocated holds at every brick identity in
every resulting state; the full flag invariant — additionally allocated
implies allocation_config_pushed and initialized implies
initialization_config_pushed — holds for every sequence all of whose
operations observe the one fixed snapshot of a tree with distinct brick
identities.  Without that proviso the rollback in push_allocation_config /
push_initialization_config refutes the two config-push implications
(`c3_counterexample`). -/
theorem c3_flag_invariant_amended :
    (∀ (ops : List (Brick × LOp)) (j : Nat),
      (runOps ops initSt j).initialized = true →
      (runOps ops initSt j).allocated = true) ∧
    (∀ t : Brick, (idsOf t).Nodup →
      ∀ ops : List (Brick × LOp), (∀ p ∈ ops, p.1 ∈ nodesOf t) →
      ∀ n ∈ nodesOf t, flagInv (runOps ops initSt n.cid)) :=
  ⟨fun ops j => runOps_initImpAlloc ops initSt initSt_initImpAlloc j,
    fun t hwf ops hops n hn =>
      nodeInv_flagInv n _
        (runOps_inv t hwf ops hops initSt (treeInv_initSt t) n hn)⟩

/-- C3 counterexample: a parent and child are allocated while the child's
`_push_allocation_config` hook succeeds; `push_allocation_config` is then
invoked again at a moment when that same hook raises.  The rollback resets
the parent's `allocation_config_pushed` while `allocated` stays true, so
the resulting state violates the claimed invariant (allocated implies
allocation_config_pushed) — the claim fails for sequences in which some
operations raise. -/
theorem c3_counterexample :
    ((runOps
        [(Brick.node ⟨0, "p", false, false, false, false, false, []⟩
            [Brick.node ⟨1, "c", false, false, false, false, false, []⟩ []],
          LOp.alloc),
         (Brick.node ⟨0, "p", false, false, false, false, false, []⟩
            [Brick.node ⟨1, "c", false, false, false, true, false, []⟩ []],
          LOp.pushAlloc)] initSt 0).allocated = true ∧
      (runOps
        [(Brick.node ⟨0, "p", false, false, false, false, false, []⟩
            [Brick.node ⟨1, "c", false, false, false, false, false, []⟩ []],
          LOp.alloc),
         (Brick.node ⟨0, "p", false, false, false, false, false, []⟩
            [Brick.node ⟨1, "c", false, false, false, true, false, []⟩ []],
          LOp.pushAlloc)] initSt 0).allocation_config_pushed = false ∧
      ¬ flagInv (runOps
        [(Brick.node ⟨0, "p", false, false, false, false, false, []⟩
            [Brick.node ⟨1, "c", false, false, false, false, false, []⟩ []],
          LOp.alloc),
         (Brick.node ⟨0, "p", false, false, false, false, false, []⟩
            [Brick.node ⟨1, "c", false, false, false, true, false, []⟩ []],
          LOp.pushAlloc)] initSt 0)) := by
  decide

/-- C5: a successful `initialize()` on a brick leaves `initialized = true`
on the brick and on every one of its children, and in the hook trace every
child's `_initialize` hook runs strictly before the brick's own
`_initialize` hook (the parent's hook event is the last event of the
trace). -/
theorem c5_initialize_parent_last (t : Brick) (st : St)
    (h : (initializeBrick t st).err = none) :
    ((initializeBrick t st).st t.cid).initialized = true ∧
    (∀ cb ∈ t.childList,
      ((initializeBrick t st).st cb.cid).initialized = true) ∧
    (∃ pre, (initializeBrick t st).tr = pre ++ [LEv.hook t.cid .init] ∧
      ∀ cb ∈ t.childList, LEv.hook cb.cid .init ∈ pre) := by
  refine ⟨initializeBrick_initialized t st h, ?_, initializeBrick_tr_split t st h⟩
  cases t with
  | node c cs =>
    revert h
    simp only [initializeBrick]
    split
    · intro h
      simp at h
    · split
      · intro h
        simp at h
      · split
        · intro h
          simp at h
        · next heq3 =>
          split
          · intro h
            simp at h
          · intro _ cb hcb
            dsimp only [Brick.childList] at hcb
            dsimp only
            have hflag := initializeBrickList_initialized cs _ heq3 cb hcb
            by_cases hj : cb.cid = c.id
            · rw [hj, setSt_eq]
            · rw [setSt_ne _ _ _ _ hj]
              exact hflag

/-- C6: when the brick-specific `_allocate` (resp. `_initialize`) hook is
the failing step of `allocate()` (resp. `initialize()`) — all config pushes
succeed and all children complete — the propagated exception is the hook
failure wrapped in the missing-lazy-configuration guidance if the brick is
lazy, and the unchanged hook failure if it is eager. -/
theorem c6_lazy_mode_error_wrapping (t : Brick) (st : St) :
    (allPushAllocOk t = true → allocOkList t.childList = true →
      t.conf.allocFail = true →
      (allocate t st).err =
        some (if t.conf.lazy then Err.lazyWrap (.hookFail t.cid .alloc)
          else .hookFail t.cid .alloc)) ∧
    (allocOk t = true → allPushInitOk t = true →
      hooksOkList t.childList = true → t.conf.initFail = true →
      (initializeBrick t st).err =
        some (if t.conf.lazy then Err.lazyWrap (.hookFail t.cid .init)
          else .hookFail t.cid .init)) :=
  ⟨fun h1 h2 h3 => allocate_hookErr t st h1 h2 h3,
    fun h1 h2 h3 h4 => initializeBrick_hookErr t st h1 h2 h3 h4⟩

/-- C7: after a successful `allocate()`, calling `allocate()` again
succeeds, rebuilds exactly the same state — in particular `params` has
structurally equal contents — and both calls leave `allocated = true`. -/
theorem c7_allocate_idempotent (t : Brick) (st : St)
    (hwf : (idsOf t).Nodup) (h : (allocate t st).err = none) :
    (allocate t ((allocate t st).st)).err = none ∧
    (allocate t ((allocate t st).st)).st = (allocate t st).st ∧
    ((allocate t st).st t.cid).allocated = true ∧
    ((allocate t ((allocate t st).st)).st t.cid).params =
      ((allocate t st).st t.cid).params := by
  have hpost := allocate_post t st hwf h
  have hconf := allocate_confOk t st h
  have hyp : ∀ m ∈ nodesOf t, (((allocate t st).st) m.cid).allocated = true ∧
      (((allocate t st).st) m.cid).allocation_config_pushed = true ∧
      (((allocate t st).st) m.cid).params = m.conf.allocParams ∧
      m.conf.allocFail = false := by
    intro m hm
    rw [hpost m hm]
    exact ⟨rfl, rfl, rfl, hconf m hm⟩
  obtain ⟨he, hs⟩ := allocate_idem t ((allocate t st).st) hyp
  exact ⟨he, hs, allocate_allocated t st h, by rw [hs]⟩

theorem notStack_nil : notStack [] := by
  intro i
  simp

theorem notStack_append {a b : List AEv} (ha : notStack a)
    (hb : notStack b) : notStack (a ++ b) := by
  intro i
  constructor
  · intro h
    rcases List.mem_append.mp h with h1 | h1
    · exact (ha i).1 h1
    · exact (hb i).1 h1
  · intro h
    rcases List.mem_append.mp h with h1 | h1
    · exact (ha i).2 h1
    · exact (hb i).2 h1

theorem notStack_map_lc (l : List LEv) : notStack (l.map AEv.lc) := by
  intro i
  constructor <;> intro h <;> obtain ⟨ev, _, he⟩ := List.mem_map.mp h <;>
    exact AEv.noConfusion he

theorem notStack_of_isTagIn {l : List AEv}
    (h : ∀ e ∈ l, e.isTagIn = true) : notStack l := by
  intro i
  constructor <;> intro hm <;> have := h _ hm <;>
    simp [AEv.isTagIn] at this

theorem notStack_tagInputs (bid : Nat) (bn an : String) (ans : List String)
    (vn : String) (i : Nat) (args : List InVal) :
    notStack (tagInputs bid bn an ans vn i args) :=
  notStack_of_isTagIn (tagInputs_isTagIn bid bn an ans vn i args)

theorem notStack_tagKwargs (bid : Nat) (bn an : String)
    (kwargs : List (String × InVal)) :
    notStack (tagKwargs bid bn an kwargs) :=
  notStack_of_isTagIn (tagKwargs_isTagIn bid bn an kwargs)

theorem notStack_tagOutputs {bid : Nat} {bn an : String}
    {oa : Option (List String)} {i : Nat} {outs : List OutVal}
    {ts : List TOut} {evs : List AEv}
    (h : tagOutputs bid bn an oa i outs = .ok (ts, evs)) : notStack evs := by
  intro j
  constructor <;> intro hm <;>
    obtain ⟨tg, he⟩ := tagOutputs_isTagOut bid bn an oa i outs ts evs h _ hm <;>
    exact AEv.noConfusion he

/-- The prefix of the `apply` trace before any push: lifecycle events and
input tagging only. -/
theorem notStack_pre (L : List LEv) (bid : Nat) (bn an : String)
    (ans : List String) (vn : String) (i : Nat) (args : List InVal)
    (kwargs : List (String × InVal)) :
    notStack (L.map AEv.lc ++ tagInputs bid bn an ans vn i args ++
      tagKwargs bid bn an kwargs) :=
  notStack_append
    (notStack_append (notStack_map_lc L)
      (notStack_tagInputs bid bn an ans vn i args))
    (notStack_tagKwargs bid bn an kwargs)

/-- A trace ending in the push/call/pop block splits as the claim demands. -/
theorem notStack_split1 {l0 : List AEv} (h : notStack l0) (bid : Nat) :
    ∃ l1 l2, l0 ++ [AEv.push bid, AEv.callFunc, AEv.pop bid] =
        l1 ++ ([AEv.push bid, AEv.callFunc, AEv.pop bid] ++ l2) ∧
      notStack l1 ∧ notStack l2 :=
  ⟨l0, [], by simp, h, notStack_nil⟩

/-- A trace with the push/call/pop block followed by output tagging splits
as the claim demands. -/
theorem notStack_split2 {l0 l3 : List AEv} (h : notStack l0)
    (h3 : notStack l3) (bid : Nat) :
    ∃ l1 l2, (l0 ++ [AEv.push bid, AEv.callFunc, AEv.pop bid]) ++ l3 =
        l1 ++ ([AEv.push bid, AEv.callFunc, AEv.pop bid] ++ l2) ∧
      notStack l1 ∧ notStack l2 :=
  ⟨l0, l3, by simp, h, h3⟩

set_option maxHeartbeats 1000000 in
/-- C2: every `apply` invocation restores the shared call stack: the stack
it leaves behind equals the stack it was given, whether the wrapped
function returns or raises, and the event trace either contains no
push/pop at all (the invocation failed before the push) or contains
exactly one balanced push–call–pop segment for the brick. -/
theorem c2_call_stack_push_pop_balanced (brick : Brick) (spec : AppSpec)
    (st : St) (stack : List StackEntry) (rd rl : Bool) (args : List InVal)
    (kwargs : List (String × InVal)) (func : FuncOutcome) :
    (applyA brick spec st stack rd rl args kwargs func).stack = stack ∧
    (notStack (applyA brick spec st stack rd rl args kwargs func).tr ∨
      ∃ l1 l2, (applyA brick spec st stack rd rl args kwargs func).tr =
        l1 ++ ([AEv.push brick.cid, AEv.callFunc, AEv.pop brick.cid] ++ l2) ∧
        notStack l1 ∧ notStack l2) := by
  refine ⟨applyA_stack_eq brick spec st stack rd rl args kwargs func, ?_⟩
  simp only [applyA]
  repeat' split
  all_goals dsimp only
  all_goals first
    | exact Or.inl notStack_nil
    | exact Or.inl (notStack_map_lc _)
    | exact Or.inl (notStack_pre _ _ _ _ _ _ _ _ _)
    | exact Or.inr (notStack_split1 (notStack_pre _ _ _ _ _ _ _ _ _) _)
    | exact Or.inr (notStack_split2 (notStack_pre _ _ _ _ _ _ _ _ _)
        (notStack_tagOutputs (by assumption)) _)

/-- The discipline check in terms of the stack contents (lines 290-291):
it fires exactly when the stack is non-empty and the brick is neither the
top entry nor among the top entry's declared children. -/
theorem stackViolation_iff (stack : List StackEntry) (bid : Nat) :
    stackViolation stack bid = true ↔
      ∃ top rest, stack = top :: rest ∧ bid ≠ top.id ∧
        bid ∉ top.childIds := by
  cases stack with
  | nil =>
    simp [stackViolation]
  | cons top rest =>
    simp only [stackViolation, Bool.and_eq_true, bne_iff_ne,
      Bool.not_eq_true', List.contains, List.elem_eq_mem,
      decide_eq_false_iff_not]
    constructor
    · rintro ⟨h1, h2⟩
      exact ⟨top, rest, rfl, h1, h2⟩
    · rintro ⟨top2, rest2, heq, h1, h2⟩
      injection heq with e1 e2
      subst e1
      exact ⟨h1, h2⟩

/-- The trace prefix accumulated before the discipline check contains no
invocation of the wrapped function. -/
theorem callFunc_not_mem_pre (L : List LEv) (bid : Nat) (bn an : String)
    (ans : List String) (vn : String) (i : Nat) (args : List InVal)
    (kwargs : List (String × InVal)) :
    AEv.callFunc ∉ (L.map AEv.lc ++ tagInputs bid bn an ans vn i args ++
      tagKwargs bid bn an kwargs) := by
  intro hm
  rcases List.mem_append.mp hm with h1 | h1
  · rcases List.mem_append.mp h1 with h2 | h2
    · obtain ⟨ev, _, he⟩ := List.mem_map.mp h2
      exact AEv.noConfusion he
    · have := tagInputs_isTagIn bid bn an ans vn i args _ h2
      simp [AEv.isTagIn] at this
  · have := tagKwargs_isTagIn bid bn an kwargs _ h1
    simp [AEv.isTagIn] at this

/-- C1: when the lifecycle prefix succeeds and the return-flag conflict is
absent, the call-stack discipline decides the fate of the invocation: the
check fires exactly when the stack is non-empty and the brick is neither
the top-of-stack brick nor one of its declared children; when it fires the
invocation returns the lifecycle ordering error and the wrapped function is
never invoked, and when it passes the wrapped function is invoked. -/
theorem c1_call_stack_discipline (brick : Brick) (spec : AppSpec)
    (st : St) (stack : List StackEntry) (rd rl : Bool) (args : List InVal)
    (kwargs : List (String × InVal)) (func : FuncOutcome)
    (hflags : (rd && rl) = false)
    (hlc : (applyLifecycle brick st).err = none) :
    (stackViolation stack brick.cid = true ↔
      ∃ top rest, stack = top :: rest ∧ brick.cid ≠ top.id ∧
        brick.cid ∉ top.childIds) ∧
    (stackViolation stack brick.cid = true →
      (applyA brick spec st stack rd rl args kwargs func).ret =
        .error .lifecycleOrdering ∧
      AEv.callFunc ∉ (applyA brick spec st stack rd rl args kwargs func).tr) ∧
    (stackViolation stack brick.cid = false →
      AEv.callFunc ∈ (applyA brick spec st stack rd rl args kwargs func).tr) := by
  refine ⟨stackViolation_iff stack brick.cid, ?_, ?_⟩
  · intro hv
    simp only [applyA, hlc]
    rw [if_neg (by simp [hflags])]
    rw [if_pos hv]
    exact ⟨rfl, callFunc_not_mem_pre _ _ _ _ _ _ _ _ _⟩
  · intro hv
    simp only [applyA, hlc]
    rw [if_neg (by simp [hflags])]
    rw [if_neg (by simp [hv])]
    cases func with
    | raise =>
      simp
    | ret outs =>
      dsimp only
      split
      · simp
      · simp

/-- C10: `apply` is not atomic with respect to the discipline check: with
well-behaved hooks, an invocation rejected by the call-stack discipline has
already allocated the brick (and initialized it in eager mode) and already
produced the tagged input copies, although the wrapped function never runs
and the invocation returns the lifecycle ordering error. -/
theorem c10_side_effects_before_rejection (brick : Brick) (spec : AppSpec)
    (st : St) (stack : List StackEntry) (rd rl : Bool) (args : List InVal)
    (kwargs : List (String × InVal)) (func : FuncOutcome)
    (hflags : (rd && rl) = false) (hok : hooksOk brick = true)
    (hv : stackViolation stack brick.cid = true) :
    (applyA brick spec st stack rd rl args kwargs func).ret =
      .error .lifecycleOrdering ∧
    ((applyA brick spec st stack rd rl args kwargs func).st
      brick.cid).allocated = true ∧
    (brick.conf.lazy = false →
      ((applyA brick spec st stack rd rl args kwargs func).st
        brick.cid).initialized = true) ∧
    AEv.callFunc ∉ (applyA brick spec st stack rd rl args kwargs func).tr ∧
    (∀ v : Nat, InVal.var v ∈ args →
      ∃ tg, AEv.tagInput tg ∈
          (applyA brick spec st stack rd rl args kwargs func).tr ∧
        tg.source = v) := by
  obtain ⟨hlc, hal, hin⟩ := applyLifecycle_ok_flags brick st hok
  simp only [applyA, hlc]
  rw [if_neg (by simp [hflags])]
  rw [if_pos hv]
  refine ⟨rfl, hal, hin, callFunc_not_mem_pre _ _ _ _ _ _ _ _ _, ?_⟩
  intro v hvv
  have key : ∀ l : List InVal, InVal.var v ∈ l →
      ∃ tg, AEv.tagInput tg ∈
          (List.map AEv.lc (applyLifecycle brick st).tr ++
            tagInputs brick.cid brick.conf.name spec.appName spec.argNames
              spec.varargsName 0 l ++
            tagKwargs brick.cid brick.conf.name spec.appName kwargs) ∧
        tg.source = v := by
    intro l hl
    obtain ⟨tg, hm, hs⟩ := tagInputs_has_var brick.cid brick.conf.name
      spec.appName spec.argNames spec.varargsName 0 l v hl
    exact ⟨tg,
      List.mem_append.mpr (Or.inl (List.mem_append.mpr (Or.inr hm))), hs⟩
  apply key
  by_cases h2 : spec.argNames.contains "application_call" = true
  · rw [if_pos h2]
    by_cases h1 : spec.argNames.contains "application" = true
    · rw [if_pos h1]
      exact mem_insertPy _ _ _ _ (mem_insertPy _ _ _ _ hvv)
    · rw [if_neg h1]
      exact mem_insertPy _ _ _ _ hvv
  · rw [if_neg h2]
    by_cases h1 : spec.argNames.contains "application" = true
    · rw [if_pos h1]
      exact mem_insertPy _ _ _ _ hvv
    · rw [if_neg h1]
      exact hvv

/-- C4 (amended): with `return_dict`, provided `outputs` is declared, the
result maps declared output names to values by position.  An actual
variable output beyond the declared names raises the unexpected-outputs
error; otherwise — in particular whenever the declaration is longer than
the actual output list — no error is raised and the mapping is silently
truncated to the first `min` (declared, actual) pairs, its keys being the
declared names cut down to the actual output count. -/
theorem c4_return_dict_zip_truncates (brick : Brick) (spec : AppSpec)
    (st : St) (stack : List StackEntry) (args : List InVal)
    (kwargs : List (String × InVal)) (names : List String)
    (outs : List OutVal)
    (hout : spec.outputs = some names)
    (hlc : (applyLifecycle brick st).err = none)
    (hnv : stackViolation stack brick.cid = false) :
    (anyExcessVar names.length 0 outs = true →
      (applyA brick spec st stack true false args kwargs (.ret outs)).ret =
        .error .unexpectedOutputs) ∧
    (anyExcessVar names.length 0 outs = false →
      ∃ d, (applyA brick spec st stack true false args kwargs
          (.ret outs)).ret = .ok (.dict d) ∧
        d.length = min names.length outs.length ∧
        d.map Prod.fst = names.take outs.length) := by
  have hspec := tagOutputs_spec brick.cid brick.conf.name spec.appName
    names 0 outs
  constructor
  · intro hx
    simp only [applyA, hlc, hout]
    rw [if_neg (by simp)]
    rw [if_neg (by simp [hnv])]
    rw [hspec.1 hx]
  · intro hx
    obtain ⟨ts, evs, he, hlen⟩ := hspec.2 hx
    simp only [applyA, hlc, hout]
    rw [if_neg (by simp)]
    rw [if_neg (by simp [hnv])]
    rw [he]
    dsimp only
    rw [if_neg (by simp)]
    rw [if_pos trivial]
    refine ⟨names.zip ts, rfl, ?_, ?_⟩
    · rw [List.length_zip, hlen]
    · rw [map_fst_zip_take names ts, hlen]

/-- C4 counterexample: a brick whose application declares the two outputs
`y`, `z` but actually returns a single variable: with `return_dict` the
call succeeds and silently returns the one-entry mapping, where the claim
demands a configuration error for a declaration exceeding the actual
output count. -/
theorem c4_counterexample :
    (applyA (.node ⟨0, "foo", true, false, false, false, false, []⟩ [])
        ⟨"apply", [], "args", some ["y", "z"]⟩ initSt [] true false [] []
        (.ret [.var 7])).ret =
      .ok (.dict [("y", .tagged ⟨7, "foo_apply_y", "y", .OUTPUT, 0⟩)]) := by
  rfl

/-- C8: mutations of a `Parameters` container annotate on the way in and
preserve the tagging invariant: construction from `N` elements yields
length `N` with every variable element PARAMETER-tagged and annotated with
the owning brick; `insert`, `append` and index assignment preserve the
invariant; `append` grows the length by one; and deleting an in-range
index shrinks the length by one, keeping the remaining elements in their
relative order. -/
theorem c8_parameters_tagging (b : Nat) (ps : List PElem) (c : Parameters)
    (i : Nat) (v : PElem) (h : allTagged c) :
    (allTagged (Parameters.mk0 b ps) ∧
      (Parameters.mk0 b ps).elems.length = ps.length) ∧
    allTagged (c.insertAt i v) ∧
    allTagged (c.setItem i v) ∧
    (allTagged (c.append v) ∧
      (c.append v).elems.length = c.elems.length + 1) ∧
    (i < c.elems.length →
      (c.delItem i).elems.length = c.elems.length - 1 ∧
      (c.delItem i).elems = c.elems.take i ++ c.elems.drop (i + 1)) := by
  refine ⟨?_, allTagged_insertAt c i v h, allTagged_setItem c i v h,
    ⟨allTagged_append c v h,
      insertPy_length c.elems c.elems.length (pAnnotate c.brick v)⟩, ?_⟩
  · have h0 : allTagged { brick := b, elems := ([] : List PElem) } := by
      intro e he
      exact absurd he (List.not_mem_nil e)
    obtain ⟨h1, h2⟩ := foldl_append_tagged ps { brick := b, elems := [] } h0
    exact ⟨h1, by simpa using h2⟩
  · intro hi
    exact ⟨List.length_eraseIdx_of_lt hi,
      List.eraseIdx_eq_take_drop_succ _ _⟩

/-- C9 (amended): under the lazy wrapper, a required positional argument
supplied positionally with a non-`None` value and also supplied by keyword
makes the constructor raise the configuration error (the names being
distinct as Python guarantees). -/
theorem c9_lazy_positional_keyword_conflict (argNames : List String)
    (nDefaults : Nat) (args : List PyV) (kwargs : List (String × PyV))
    (i : Nat) (hnd : argNames.Nodup)
    (hi : i < (argNames.take (argNames.length - nDefaults)).length)
    (hpos : (args.getD i none).isSome = true)
    (hkw : (lookupKw kwargs
      ((argNames.take (argNames.length - nDefaults)).getD i "")).isSome =
        true) :
    lazyInit argNames nDefaults args kwargs = .error () := by
  simp only [lazyInit]
  have hlt : i < args.length := by
    by_contra hge
    rw [List.getD_eq_default _ _ (Nat.le_of_not_lt hge)] at hpos
    simp at hpos
  refine lazyFill_conflict _ 0 _ kwargs i
    ((List.take_sublist _ _).nodup hnd) hi ?_ hkw
  rw [Nat.zero_add, List.getD_append _ _ _ _ hlt]
  exact hpos

/-- C9 counterexample: the required argument `a` is supplied positionally
as `None` and again by keyword, yet the lazy wrapper accepts the call and
the keyword value fills the slot, where the claim demands a configuration
error for every value pair supplied both ways. -/
theorem c9_counterexample :
    lazyInit ["a", "b"] 0 [none] [("a", some 5)] =
      .ok ([some 5, none], []) := by
  rfl

/-! ## Concrete instantiations of the claims -/

theorem c1_call_stack_discipline_witness :
    ((false && false) = false ∧
      (applyLifecycle (Brick.node
        ⟨0, "b", false, false, false, false, false, []⟩ []) initSt).err =
        none) ∧
    (applyA (Brick.node ⟨0, "b", false, false, false, false, false, []⟩ [])
        ⟨"apply", [], "v", none⟩ initSt [⟨5, []⟩] false false [] []
        (.ret [])).ret = .error .lifecycleOrdering :=
  ⟨⟨by decide, by decide⟩,
    ((c1_call_stack_discipline
      (Brick.node ⟨0, "b", false, false, false, false, false, []⟩ [])
      ⟨"apply", [], "v", none⟩ initSt [⟨5, []⟩] false false [] [] (.ret [])
      (by decide) (by decide)).2.1 (by decide)).1⟩

theorem c3_flag_invariant_amended_witness :
    ((runOps [(Brick.node ⟨2, "b", false, false, false, false, false, []⟩ [],
        LOp.init)] initSt 2).initialized = true ∧
      (runOps [(Brick.node ⟨2, "b", false, false, false, false, false, []⟩ [],
        LOp.init)] initSt 2).allocated = true) ∧
    ((idsOf (Brick.node
        ⟨2, "b", false, false, false, false, false, []⟩ [])).Nodup ∧
      flagInv (runOps
        [(Brick.node ⟨2, "b", false, false, false, false, false, []⟩ [],
          LOp.init)] initSt 2)) :=
  ⟨⟨by decide,
    c3_flag_invariant_amended.1
      [(Brick.node ⟨2, "b", false, false, false, false, false, []⟩ [],
        LOp.init)] 2 (by decide)⟩,
   ⟨by decide,
    c3_flag_invariant_amended.2
      (Brick.node ⟨2, "b", false, false, false, false, false, []⟩ [])
      (by decide)
      [(Brick.node ⟨2, "b", false, false, false, false, false, []⟩ [],
        LOp.init)]
      (by
        intro p hp
        rw [List.mem_singleton] at hp
        rw [hp]
        exact self_mem_nodesOf _)
      (Brick.node ⟨2, "b", false, false, false, false, false, []⟩ [])
      (self_mem_nodesOf _)⟩⟩

theorem c4_return_dict_zip_truncates_witness :
    ((⟨"apply", [], "a", some ["o1"]⟩ : AppSpec).outputs = some ["o1"] ∧
      (applyLifecycle (Brick.node
        ⟨1, "bar", true, false, false, false, false, []⟩ []) initSt).err =
        none ∧
      stackViolation [] (Brick.node
        ⟨1, "bar", true, false, false, false, false, []⟩ []).cid = false) ∧
    (anyExcessVar (["o1"].length) 0 [OutVal.var 3] = false →
      ∃ d, (applyA (Brick.node
          ⟨1, "bar", true, false, false, false, false, []⟩ [])
          ⟨"apply", [], "a", some ["o1"]⟩ initSt [] true false [] []
          (.ret [OutVal.var 3])).ret = .ok (.dict d) ∧
        d.length = min (["o1"].length) ([OutVal.var 3].length) ∧
        d.map Prod.fst = ["o1"].take ([OutVal.var 3].length)) :=
  ⟨⟨rfl, by decide, by decide⟩,
    (c4_return_dict_zip_truncates
      (Brick.node ⟨1, "bar", true, false, false, false, false, []⟩ [])
      ⟨"apply", [], "a", some ["o1"]⟩ initSt [] [] [] ["o1"] [.var 3]
      rfl (by decide) (by decide)).2⟩

theorem c5_initialize_parent_last_witness :
    (initializeBrick (Brick.node
      ⟨0, "p", false, false, false, false, false, []⟩
      [Brick.node ⟨1, "c", false, false, false, false, false, []⟩ []])
      initSt).err = none ∧
    ((initializeBrick (Brick.node
      ⟨0, "p", false, false, false, false, false, []⟩
      [Brick.node ⟨1, "c", false, false, false, false, false, []⟩ []])
      initSt).st 0).initialized = true :=
  ⟨by decide,
    (c5_initialize_parent_last
      (Brick.node ⟨0, "p", false, false, false, false, false, []⟩
        [Brick.node ⟨1, "c", false, false, false, false, false, []⟩ []])
      initSt (by decide)).1⟩

theorem c6_lazy_mode_error_wrapping_witness :
    (allPushAllocOk (Brick.node
        ⟨0, "z", true, true, false, false, false, []⟩ []) = true ∧
      allocOkList (Brick.node
        ⟨0, "z", true, true, false, false, false, []⟩ []).childList = true ∧
      (Brick.node
        ⟨0, "z", true, true, false, false, false, []⟩ []).conf.allocFail =
        true) ∧
    (allocate (Brick.node ⟨0, "z", true, true, false, false, false, []⟩ [])
      initSt).err = some (Err.lazyWrap (.hookFail 0 .alloc)) :=
  ⟨⟨by decide, by decide, by decide⟩,
    (c6_lazy_mode_error_wrapping
      (Brick.node ⟨0, "z", true, true, false, false, false, []⟩ [])
      initSt).1 (by decide) (by decide) (by decide)⟩

theorem c7_allocate_idempotent_witness :
    ((idsOf (Brick.node
        ⟨0, "q", false, false, false, false, false, [3]⟩ [])).Nodup ∧
      (allocate (Brick.node
        ⟨0, "q", false, false, false, false, false, [3]⟩ [])
        initSt).err = none) ∧
    (allocate (Brick.node ⟨0, "q", false, false, false, false, false, [3]⟩ [])
      ((allocate (Brick.node
        ⟨0, "q", false, false, false, false, false, [3]⟩ [])
        initSt).st)).err = none :=
  ⟨⟨by decide, by decide⟩,
    (c7_allocate_idempotent
      (Brick.node ⟨0, "q", false, false, false, false, false, [3]⟩ [])
      initSt (by decide) (by decide)).1⟩

theorem c8_parameters_tagging_witness :
    allTagged ⟨7, [PElem.pother 1]⟩ ∧
    (Parameters.mk0 7 [PElem.pvar 2 [] []]).elems.length = 1 :=
  ⟨by decide,
    (c8_parameters_tagging 7 [PElem.pvar 2 [] []] ⟨7, [PElem.pother 1]⟩ 0
      (PElem.pvar 3 [] []) (by decide)).1.2⟩

theorem c9_lazy_positional_keyword_conflict_witness :
    ((["a"] : List String).Nodup ∧
      0 < ((["a"] : List String).take (["a"].length - 0)).length ∧
      (([some 1] : List PyV).getD 0 none).isSome = true ∧
      (lookupKw [("a", some 2)]
        (((["a"] : List String).take (["a"].length - 0)).getD 0 "")).isSome =
        true) ∧
    lazyInit ["a"] 0 [some 1] [("a", some 2)] = .error () :=
  ⟨⟨by decide, by decide, by decide, by decide⟩,
    c9_lazy_positional_keyword_conflict ["a"] 0 [some 1] [("a", some 2)] 0
      (by decide) (by decide) (by decide) (by decide)⟩

theorem c10_side_effects_before_rejection_witness :
    ((false && false) = false ∧
      hooksOk (Brick.node
        ⟨2, "w", false, false, false, false, false, []⟩ []) = true ∧
      stackViolation [⟨9, []⟩] (Brick.node
        ⟨2, "w", false, false, false, false, false, []⟩ []).cid = true) ∧
    (applyA (Brick.node ⟨2, "w", false, false, false, false, false, []⟩ [])
        ⟨"apply", [], "v", none⟩ initSt [⟨9, []⟩] false false [InVal.var 4]
        [] (.ret [])).ret = .error .lifecycleOrdering ∧
    ((applyA (Brick.node ⟨2, "w", false, false, false, false, false, []⟩ [])
        ⟨"apply", [], "v", none⟩ initSt [⟨9, []⟩] false false [InVal.var 4]
        [] (.ret [])).st 2).allocated = true :=
  ⟨⟨by decide, by decide, by decide⟩,
    (c10_side_effects_before_rejection
      (Brick.node ⟨2, "w", false, false, false, false, false, []⟩ [])
      ⟨"apply", [], "v", none⟩ initSt [⟨9, []⟩] false false [InVal.var 4]
      [] (.ret []) (by decide) (by decide) (by decide)).1,
    (c10_side_effects_before_rejection
      (Brick.node ⟨2, "w", false, false, false, false, false, []⟩ [])
      ⟨"apply", [], "v", none⟩ initSt [⟨9, []⟩] false false [InVal.var 4]
      [] (.ret []) (by decide) (by decide) (by decide)).2.1⟩

end Blocks
